import Mathlib

/-!
Verification development for the themiscyra repository.

The development shallowly embeds the two cores of the repository:

* `src/syntaxlib/ast.py` — the bounded loop-unfolding engine over a
  pycparser-style AST (`unfold`, `_unfold`, `map_dfs`,
  `insert_node_after_continue`, `rename_iterated_variables`,
  `declare_iterated_variables`, `get_main_while`, `rename_syncvar`);
* `src/cfg.py` — the AST-to-CFG translation (`ast_to_cfg`) and the graph
  region utilities (`get_subgraph_between_nodes`, `insert_graph`).

AST nodes are modelled as a tagged inductive mirroring the pycparser node
kinds the code manipulates; Python's in-place mutation of subtrees is
modelled by rebuilding the tree functionally.  The CFG is modelled
arena-style: vertices are natural-number handles allocated in program order,
which models networkx's object-identity-keyed vertices (each distinct Python
object is one fresh handle).  Python's `None`, which networkx accepts as a
vertex (it is hashable), is modelled as the reserved handle `0`; real
handles start at `1`.
-/

/-! ## AST data model (the pycparser node kinds used by the code) -/

/-- Shape of a `c_ast.Decl`'s `type` field, as far as
`declare_iterated_variables` (src/syntaxlib/ast.py:682) inspects it:
a `TypeDecl` whose inner type is an `Enum`, a `TypeDecl` whose inner type is
an `IdentifierType`, a `PtrDecl` wrapping a `TypeDecl`, or anything else. -/
inductive DeclType where
  | enumType (declname : String) (enumName : String)
  | identType (declname : String) (typeName : String)
  | ptrType (declname : String) (typeName : String)
  | otherType
deriving DecidableEq

/-- The AST node kinds of pycparser that src/syntaxlib/ast.py and src/cfg.py
manipulate.  `If.iftrue`/`If.iffalse` and `While.stmt` hold arbitrary nodes
(in practice `Compound`s), exactly as in pycparser. -/
inductive CNode where
  | ID (name : String)
  | Constant (value : String)
  | BinaryOp (op : String) (lhs rhs : CNode)
  | UnaryOp (op : String) (arg : CNode)
  | Assignment (op : String) (lvalue rvalue : CNode)
  | FuncCall (callee : CNode) (args : List CNode)
  | Decl (name : String) (ty : DeclType)
  | Continue
  | If (cond : CNode) (iftrue : CNode) (iffalse : Option CNode)
  | While (cond : CNode) (stmt : CNode)
  | Compound (items : List CNode)
  | FileAST (ext : List CNode)
  | FuncDef (body : CNode)

/-- The synchronization-variable mapping read from the config:
`{'round': <name>, 'mbox': <name>}`. -/
structure SyncVars where
  round : String
  mbox : String
deriving DecidableEq

/-- `type(n) == c_ast.If`. -/
def isIf : CNode → Bool
  | .If _ _ _ => true
  | _ => false

/-- `type(n) == c_ast.Continue`. -/
def isContinue : CNode → Bool
  | .Continue => true
  | _ => false

/-- `type(n) == c_ast.Decl`. -/
def isDecl : CNode → Bool
  | .Decl _ _ => true
  | _ => false

/-! ## `rename_syncvar` (src/syntaxlib/ast.py:45)

The source computes `newname = name + '_ITER'` and then
`newname.replace('ITER', str(iteration))`, replacing **every** occurrence of
the substring `ITER` — including any occurrence inside `name` itself.
`replaceITER` is Python's left-to-right non-overlapping `str.replace`
specialized to the pattern `ITER`, written on character lists so that the
kernel can evaluate it. -/

/-- Python `s.replace('ITER', rep)` on a character list: scan left to right,
replacing each non-overlapping occurrence of `ITER`. -/
def replaceITER (rep : List Char) : List Char → List Char
  | 'I' :: 'T' :: 'E' :: 'R' :: rest => rep ++ replaceITER rep rest
  | c :: rest => c :: replaceITER rep rest
  | [] => []

/-- `rename_syncvar(name, iteration)` (src/syntaxlib/ast.py:45):
`(name + '_ITER').replace('ITER', str(iteration))`. -/
def rename_syncvar (name : String) (iteration : Nat) : String :=
  String.mk (replaceITER (Nat.repr iteration).data (name ++ "_ITER").data)

/-! ## `rename_iterated_variables` (src/syntaxlib/ast.py:669)

The Python `RenameVariablesVisitor` walks the whole subtree and renames
every `ID` node whose name is in `vars`; `mapIDs` is that walk,
parameterized by the function applied to each `ID` name. -/

mutual
/-- Apply `f` to the name of every `ID` node of the subtree (the effect of a
pycparser `NodeVisitor` whose only override is `visit_ID`). -/
def mapIDs (f : String → String) : CNode → CNode
  | .ID name => .ID (f name)
  | .Constant v => .Constant v
  | .BinaryOp op l r => .BinaryOp op (mapIDs f l) (mapIDs f r)
  | .UnaryOp op a => .UnaryOp op (mapIDs f a)
  | .Assignment op l r => .Assignment op (mapIDs f l) (mapIDs f r)
  | .FuncCall c args => .FuncCall (mapIDs f c) (mapIDsList f args)
  | .Decl n ty => .Decl n ty
  | .Continue => .Continue
  | .If c t ff => .If (mapIDs f c) (mapIDs f t) (mapIDsOpt f ff)
  | .While c s => .While (mapIDs f c) (mapIDs f s)
  | .Compound items => .Compound (mapIDsList f items)
  | .FileAST ext => .FileAST (mapIDsList f ext)
  | .FuncDef b => .FuncDef (mapIDs f b)
def mapIDsList (f : String → String) : List CNode → List CNode
  | [] => []
  | x :: xs => mapIDs f x :: mapIDsList f xs
def mapIDsOpt (f : String → String) : Option CNode → Option CNode
  | none => none
  | some x => some (mapIDs f x)
end

/-- `rename_iterated_variables(ast, vars, iteration)`
(src/syntaxlib/ast.py:669): rename every `ID` whose name is in `vars`
to `rename_syncvar(name, iteration)`. -/
def rename_iterated_variables (vars : List String) (iteration : Nat)
    (ast : CNode) : CNode :=
  mapIDs (fun s => if s ∈ vars then rename_syncvar s iteration else s) ast

/-! ## `insert_node_after_continue` (src/syntaxlib/ast.py:240) and
`map_dfs` (src/syntaxlib/ast.py:18)

`insert_node_after_continue` iterates over a snapshot of the compound's
statement list; for each `Continue` object it removes that object from the
live list, appends a fresh deep copy of the template statements, and then
re-appends the `Continue`.  `list.remove(i)` removes by object identity
(pycparser nodes define no `__eq__`); since each original `Continue` object
sits, at its processing turn, strictly to the left of everything appended so
far, removing the leftmost `Continue` value is exactly equivalent, which is
how `removeFirstContinue` models it. -/

/-- Remove the leftmost `Continue` of a statement list. -/
def removeFirstContinue : List CNode → List CNode
  | [] => []
  | x :: xs => if isContinue x then xs else x :: removeFirstContinue xs

/-- One turn of the `for i in items` loop of `insert_node_after_continue`
(src/syntaxlib/ast.py:247): on a `Continue`, remove it from the live list,
append a copy of the template body, re-append the `Continue`. -/
def spliceStep (body : List CNode) (state : List CNode) (e : CNode) : List CNode :=
  if isContinue e then removeFirstContinue state ++ body ++ [e] else state

/-- The whole loop of `insert_node_after_continue` on a compound that
contains at least one direct `Continue`: fold the per-`Continue` step over
the snapshot of the statement list (`items = copy.copy(codeast.block_items)`),
starting from the live list itself. -/
def insert_node_after_continue_items (body items : List CNode) : List CNode :=
  items.foldl (spliceStep body) items

mutual
/-- `map_dfs(node, insert_node_after_continue, [body])`
(src/syntaxlib/ast.py:18 with the callback at line 240): a compound that
directly contains a `Continue` is spliced and, because the callback returns
`False`, **not** recursed into; a compound without a direct `Continue` is
recursed into statement by statement; `If` recurses into `iftrue` and (when
present) `iffalse` but not into `cond`; `While` into `stmt`; `FuncDef` into
`body`; `FileAST` into every top-level item; any other node is left alone
(the DFS does not descend into non-recursive node kinds). -/
def mapDfsSplice (body : List CNode) : CNode → CNode
  | .Compound items =>
      if items.any isContinue then
        .Compound (insert_node_after_continue_items body items)
      else
        .Compound (mapDfsSpliceList body items)
  | .If c t ff => .If c (mapDfsSplice body t) (mapDfsSpliceOpt body ff)
  | .While c s => .While c (mapDfsSplice body s)
  | .FileAST ext => .FileAST (mapDfsSpliceList body ext)
  | .FuncDef b => .FuncDef (mapDfsSplice body b)
  | n => n
def mapDfsSpliceList (body : List CNode) : List CNode → List CNode
  | [] => []
  | x :: xs => mapDfsSplice body x :: mapDfsSpliceList body xs
def mapDfsSpliceOpt (body : List CNode) : Option CNode → Option CNode
  | none => none
  | some x => some (mapDfsSplice body x)
end

/-- The effect of `map_dfs(compound, insert_node_after_continue, [body])` on
the statement list of the compound node it is called on. -/
def mapDfsSpliceItems (body items : List CNode) : List CNode :=
  if items.any isContinue then insert_node_after_continue_items body items
  else mapDfsSpliceList body items

/-! ## `get_main_while` (src/syntaxlib/ast.py:548)

`MainWhileVisitor` records each `While` it meets; `visit_While` does not
call `generic_visit`, so the visitor never descends into a recorded `While`;
the final `result` is therefore the **last** `While` of the pruned preorder
traversal (later records overwrite earlier ones).  `gmwNode acc n` folds
that traversal, threading the currently recorded result. -/

mutual
def gmwNode (acc : Option CNode) : CNode → Option CNode
  | .While c s => some (.While c s)
  | .If c t ff => gmwOpt (gmwNode (gmwNode acc c) t) ff
  | .BinaryOp _ l r => gmwNode (gmwNode acc l) r
  | .UnaryOp _ a => gmwNode acc a
  | .Assignment _ l r => gmwNode (gmwNode acc l) r
  | .FuncCall c args => gmwList (gmwNode acc c) args
  | .Compound items => gmwList acc items
  | .FileAST ext => gmwList acc ext
  | .FuncDef b => gmwNode acc b
  | _ => acc
def gmwList (acc : Option CNode) : List CNode → Option CNode
  | [] => acc
  | x :: xs => gmwList (gmwNode acc x) xs
def gmwOpt (acc : Option CNode) : Option CNode → Option CNode
  | none => acc
  | some x => gmwNode acc x
end

/-- `get_main_while(ast)` (src/syntaxlib/ast.py:548). -/
def get_main_while (ast : CNode) : Option CNode :=
  gmwNode none ast

mutual
/-- Does the subtree contain a `While` node at all? -/
def hasWhile : CNode → Bool
  | .While _ _ => true
  | .If c t ff => hasWhile c || hasWhile t || hasWhileOpt ff
  | .BinaryOp _ l r => hasWhile l || hasWhile r
  | .UnaryOp _ a => hasWhile a
  | .Assignment _ l r => hasWhile l || hasWhile r
  | .FuncCall c args => hasWhile c || hasWhileList args
  | .Compound items => hasWhileList items
  | .FileAST ext => hasWhileList ext
  | .FuncDef b => hasWhile b
  | _ => false
def hasWhileList : List CNode → Bool
  | [] => false
  | x :: xs => hasWhile x || hasWhileList xs
def hasWhileOpt : Option CNode → Bool
  | none => false
  | some x => hasWhile x
end

/-! ## `declare_iterated_variables` (src/syntaxlib/ast.py:682)

`DeclareIteratedVariablesVisitor.visit_Decl` recognizes two declaration
shapes — `TypeDecl` over `Enum` (matching on `node.name`) and `PtrDecl`
(matching on `node.type.type.declname`) — and, for each recognized match,
inserts `iterations+1` renamed deep copies **at index 0** of the parent's
`block_items` (so the copies end up in front, in descending generation
order).  The `visited` list prevents reprocessing; the model assumes the
renamed copies themselves do not match `vars` again (with pathological
variable names such as `round_0` the Python visitor would re-match its own
copies while iterating a list it is mutating).  A matched `Decl` whose
direct parent is not a `Compound` (e.g. a top-level `Decl` of a `FileAST`,
which has `ext` and no `block_items`) makes the Python raise an
`AttributeError`; the model leaves such a declaration without copies. -/

/-- The recognition test of `visit_Decl` (src/syntaxlib/ast.py:705-721). -/
def declMatches (vars : List String) : CNode → Bool
  | .Decl name (.enumType _ _) => vars.contains name
  | .Decl _ (.ptrType declname _) => vars.contains declname
  | _ => false

/-- One renamed copy: `new_decl = deepcopy(node); new_decl.name =
rename_syncvar(new_decl.name, i)`, with the inner `declname` updated to the
new name (lines 712-714 for the enum shape, 724-726 for the pointer shape). -/
def declCopy (d : CNode) (i : Nat) : CNode :=
  match d with
  | .Decl name (.enumType _ en) =>
      .Decl (rename_syncvar name i) (.enumType (rename_syncvar name i) en)
  | .Decl name (.ptrType _ tn) =>
      .Decl (rename_syncvar name i) (.ptrType (rename_syncvar name i) tn)
  | other => other

/-- The `for i in range(0, iterations+1): ... insert(0, new_decl)` loop:
each copy is pushed at the front, so the copies accumulate in descending
generation order `_k, ..., _0`. -/
def declCopies (k : Nat) (d : CNode) : List CNode :=
  (List.range (k + 1)).foldl (fun acc i => declCopy d i :: acc) []

/-- All copies contributed to the front of one compound's statement list:
each matched declaration, processed in list order, pushes its block of
copies at index 0 — so a later match's copies end up before an earlier
match's copies. -/
def declFront (vars : List String) (k : Nat) (items : List CNode) : List CNode :=
  items.foldl (fun acc d => if declMatches vars d then declCopies k d ++ acc else acc) []

mutual
/-- `declare_iterated_variables(ast, vars, iterations)`
(src/syntaxlib/ast.py:682): the visitor recurses everywhere via
`generic_visit`, tracking the direct parent; every compound receives at its
front the copies of its own matched direct declarations. -/
def declPhase (vars : List String) (k : Nat) : CNode → CNode
  | .Compound items =>
      .Compound (declFront vars k items ++ declPhaseList vars k items)
  | .If c t ff => .If (declPhase vars k c) (declPhase vars k t) (declPhaseOpt vars k ff)
  | .While c s => .While (declPhase vars k c) (declPhase vars k s)
  | .FileAST ext => .FileAST (declPhaseList vars k ext)
  | .FuncDef b => .FuncDef (declPhase vars k b)
  | .BinaryOp op l r => .BinaryOp op (declPhase vars k l) (declPhase vars k r)
  | .UnaryOp op a => .UnaryOp op (declPhase vars k a)
  | .Assignment op l r => .Assignment op (declPhase vars k l) (declPhase vars k r)
  | .FuncCall c args => .FuncCall (declPhase vars k c) (declPhaseList vars k args)
  | n => n
def declPhaseList (vars : List String) (k : Nat) : List CNode → List CNode
  | [] => []
  | x :: xs => declPhase vars k x :: declPhaseList vars k xs
def declPhaseOpt (vars : List String) (k : Nat) : Option CNode → Option CNode
  | none => none
  | some x => some (declPhase vars k x)
end

/-! ## `_unfold` (src/syntaxlib/ast.py:134)

`_unfold(compound, while_body, syncvars, iteration, unfoldings)` is a
recursion whose guard `unfoldings > iteration` depends only on the
difference `gas = unfoldings - iteration`; the model keeps `iteration`
explicit and recurses structurally on `gas` (so the standard entry
`iteration=0, unfoldings=k-1` is `gas = k-1`).  An `upon` whose `iftrue` is
not a `Compound` is left unchanged (the Python would iterate the node's
pycparser children instead, a shape the pipeline never produces). -/

/-- The renaming applied to the non-`If` statements of the current branch
(src/syntaxlib/ast.py:140-143): `mbox → generation(iteration-1)` but only
when `iteration > 0`, then `round → generation(iteration)` unconditionally. -/
def uponRename (sv : SyncVars) (iteration : Nat) (stm : CNode) : CNode :=
  rename_iterated_variables [sv.round] iteration
    (if 0 < iteration then rename_iterated_variables [sv.mbox] (iteration - 1) stm else stm)

/-- The terminal renaming (src/syntaxlib/ast.py:163-166):
`round → generation(iteration+1)`, then `mbox → generation(iteration)`. -/
def terminalRename (sv : SyncVars) (iteration : Nat) (stm : CNode) : CNode :=
  rename_iterated_variables [sv.mbox] iteration
    (rename_iterated_variables [sv.round] (iteration + 1) stm)

/-- The renaming applied to the fresh template copy
(src/syntaxlib/ast.py:146-153): non-`If` statements are renamed wholly,
`If` statements only in their condition, both roles to `generation(iteration)`. -/
def tmplRename (sv : SyncVars) (iteration : Nat) : CNode → CNode
  | .If c t ff => .If (rename_iterated_variables [sv.mbox, sv.round] iteration c) t ff
  | n => rename_iterated_variables [sv.mbox, sv.round] iteration n

/-- Steps 139-155 of `_unfold`: rename the current branch's non-`If`
statements, rename a fresh template copy, and splice the copy in before
every `Continue` found by `map_dfs`. -/
def spliceStage (tmpl : List CNode) (sv : SyncVars) (iteration : Nat)
    (compound : List CNode) : List CNode :=
  let compound1 := compound.map (fun n => if isIf n then n else uponRename sv iteration n)
  let newBody := tmpl.map (tmplRename sv iteration)
  mapDfsSpliceItems newBody compound1

/-- The body of the `for upon in new_upons` loop of `_unfold`
(src/syntaxlib/ast.py:157-166): an `If` handler has its branch statement
list transformed by `f`; every other node — and an `If` whose branch is not
a `Compound`, which the Python would iterate child-wise — is untouched. -/
def branchUpon (f : List CNode → List CNode) : CNode → CNode
  | .If c (.Compound b) ff => .If c (.Compound (f b)) ff
  | n => n

/-- `_unfold` (src/syntaxlib/ast.py:134), acting on the statement list of
the branch compound; `gas = unfoldings - iteration`, so the recursion guard
`unfoldings > iteration` is `gas > 0`.  At `gas = 0` each handler branch
receives the terminal rename of its non-`If` statements; otherwise each
handler branch is expanded recursively at `iteration + 1`. -/
def unfoldAux (tmpl : List CNode) (sv : SyncVars) : Nat → Nat → List CNode → List CNode
  | 0, iteration, compound =>
      (spliceStage tmpl sv iteration compound).map (branchUpon
        (fun b => b.map (fun m => if isIf m then m else terminalRename sv iteration m)))
  | gas + 1, iteration, compound =>
      (spliceStage tmpl sv iteration compound).map (branchUpon
        (unfoldAux tmpl sv gas (iteration + 1)))

/-! ## `unfold` (src/syntaxlib/ast.py:51) -/

/-- The failures the embedded `unfold` can surface.  `attributeError` is
Python's generic `AttributeError` (e.g. `main_while.stmt` when
`get_main_while` returned `None`).  `preconditionError` is **modelled from
the spec**: the spec's error taxonomy names a `PreconditionError`, but no
such exception class exists anywhere in the source; the constructor exists
only so that the spec's claim about it can be stated. -/
inductive PyErr where
  | attributeError
  | preconditionError
deriving DecidableEq

/-- The per-handler call `_unfold(upon.iftrue, while_body, syncvars,
iteration=0, unfoldings=k-1)` (src/syntaxlib/ast.py:130-131): non-`If`
statements of the loop body are not touched by the loop over `upons`. -/
def unfoldUpon (tmpl : List CNode) (sv : SyncVars) (gas : Nat) : CNode → CNode
  | .If c (.Compound b) ff => .If c (.Compound (unfoldAux tmpl sv gas 0 b)) ff
  | n => n

mutual
/-- Replace the `While` that `get_main_while` returns (the last one of the
pruned preorder traversal) using `f`; the `Bool` reports whether a
replacement happened.  Children are scanned from the right so that the
rightmost (= last recorded) `While` is the one replaced. -/
def rmwNode (f : CNode → CNode) : CNode → CNode × Bool
  | .While c s => (f (.While c s), true)
  | .If c t ff =>
      match rmwOpt f ff with
      | (ff2, true) => (.If c t ff2, true)
      | _ =>
        match rmwNode f t with
        | (t2, true) => (.If c t2 ff, true)
        | _ =>
          match rmwNode f c with
          | (c2, true) => (.If c2 t ff, true)
          | _ => (.If c t ff, false)
  | .BinaryOp op l r =>
      match rmwNode f r with
      | (r2, true) => (.BinaryOp op l r2, true)
      | _ =>
        match rmwNode f l with
        | (l2, true) => (.BinaryOp op l2 r, true)
        | _ => (.BinaryOp op l r, false)
  | .UnaryOp op a =>
      match rmwNode f a with
      | (a2, done) => (.UnaryOp op a2, done)
  | .Assignment op l r =>
      match rmwNode f r with
      | (r2, true) => (.Assignment op l r2, true)
      | _ =>
        match rmwNode f l with
        | (l2, true) => (.Assignment op l2 r, true)
        | _ => (.Assignment op l r, false)
  | .FuncCall c args =>
      match rmwList f args with
      | (args2, true) => (.FuncCall c args2, true)
      | _ =>
        match rmwNode f c with
        | (c2, true) => (.FuncCall c2 args, true)
        | _ => (.FuncCall c args, false)
  | .Compound items =>
      match rmwList f items with
      | (items2, done) => (.Compound items2, done)
  | .FileAST ext =>
      match rmwList f ext with
      | (ext2, done) => (.FileAST ext2, done)
  | .FuncDef b =>
      match rmwNode f b with
      | (b2, done) => (.FuncDef b2, done)
  | n => (n, false)
def rmwList (f : CNode → CNode) : List CNode → List CNode × Bool
  | [] => ([], false)
  | x :: xs =>
      match rmwList f xs with
      | (xs2, true) => (x :: xs2, true)
      | _ =>
        match rmwNode f x with
        | (x2, done) => (x2 :: xs, done)
def rmwOpt (f : CNode → CNode) : Option CNode → Option CNode × Bool
  | none => (none, false)
  | some x =>
      match rmwNode f x with
      | (x2, done) => (some x2, done)
end

/-- `unfold(ast, k, syncvars)` (src/syntaxlib/ast.py:51).  When
`get_main_while` finds no `While`, the very next line `main_while.stmt`
dereferences `None` and raises a generic `AttributeError`; likewise
`main_while.stmt.block_items` when the loop body is not a `Compound`.
Otherwise: snapshot the loop body as the iteration template, run the
declaration phase over the whole AST, then expand each `If` handler of the
(post-declaration-phase) loop body with `iteration=0, unfoldings=k-1`. -/
def unfold (ast : CNode) (k : Nat) (sv : SyncVars) : Except PyErr CNode :=
  match get_main_while ast with
  | none => .error .attributeError
  | some (.While _ (.Compound items)) =>
      let ast2 := declPhase [sv.round, sv.mbox] k ast
      .ok ((rmwNode (fun w =>
        match w with
        | .While c2 (.Compound items2) =>
            .While c2 (.Compound (items2.map (unfoldUpon items sv (k - 1))))
        | w => w) ast2).1)
  | some _ => .error .attributeError

/-! ## `ast_to_cfg` (src/cfg.py:107)

The CFG's vertices are Python object identities; the model allocates a
fresh natural-number handle for every node object the translation creates
or registers, in program order.  `networkx.add_edge` also implicitly adds
its endpoints, and re-adding a node is a no-op, so only the first
registration of each object allocates.  Edges are kept as a list (most
recently added first); multiplicity and order never matter to the source,
which treats the edge set as a set.  Python's `None` — which the empty
`Compound` translation returns as both ends of its region and which
networkx happily accepts as a vertex — is the reserved handle `0`. -/

/-- What a CFG vertex stands for: the marker objects of `ControlFlowGraph`
(src/cfg.py:13-27), the guard nodes built by `ast_to_cfg`, or a leaf AST
node registered as its own vertex. -/
inductive VLabel where
  | ifStartMark
  | ifEndMark
  | whileEndMark
  | funcDefEndMark
  | ifGuard (cond : CNode)
  | whileGuard (cond : CNode)
  | funcDefEntry
  | astNode (n : CNode)

/-- The arena: next fresh handle, registered vertices with their labels,
and the edge list. -/
structure CfgState where
  nextId : Nat
  nodes : List (Nat × VLabel)
  edges : List (Nat × Nat)

/-- Register a freshly created node object. -/
def addNode (st : CfgState) (lab : VLabel) : Nat × CfgState :=
  (st.nextId,
   { st with nextId := st.nextId + 1, nodes := (st.nextId, lab) :: st.nodes })

/-- `digraph.add_edge(a, b)`. -/
def addEdge (st : CfgState) (a b : Nat) : CfgState :=
  { st with edges := (a, b) :: st.edges }

/-- The empty arena; handle `0` is reserved for Python's `None`. -/
def emptyCfg : CfgState := ⟨1, [], []⟩

mutual
/-- `ast_to_cfg(digraph, ast)` (src/cfg.py:107): returns the `(first, last)`
region of the translated node and the updated graph.

* `If` (lines 140-175): create the `IfStart`/`IfEnd` markers and the
  true-guard `If(c, None, None)`, translate the true branch, add
  `first→guard→T_first` and `T_last→last`; when a false branch exists,
  create the negated guard `If(!c)` and wire it the same way; finally,
  **unconditionally** add `first→last`.
* `While` (lines 187-201): translate the body, create the guard
  `While(c, None)` and the `WhileEnd` marker, add `G→B_first`,
  `B_last→L_out` and `G→L_out`, and no back-edge.
* `Compound` (lines 209-229): chain the items; the empty compound returns
  `(None, None)`, i.e. `(0, 0)`.
* `FuncDef` (lines 237-249): translate the body and wrap it between a
  `FuncDef` entry vertex and a `FuncDefEnd` marker.
* anything else (line 250): register the node itself as a single vertex. -/
def astToCfg : CNode → CfgState → (Nat × Nat) × CfgState
  | .If c t ff, st =>
      let p1 := addNode st .ifStartMark
      let p2 := addNode p1.2 .ifEndMark
      let p3 := addNode p2.2 (.ifGuard c)
      let r4 := astToCfg t p3.2
      let st5 := addEdge (addEdge (addEdge r4.2 p1.1 p3.1) p3.1 r4.1.1) r4.1.2 p2.1
      match ff with
      | none => ((p1.1, p2.1), addEdge st5 p1.1 p2.1)
      | some fb =>
          let p6 := addNode st5 (.ifGuard (.UnaryOp "!" c))
          let st7 := addEdge p6.2 p1.1 p6.1
          let r8 := astToCfg fb st7
          let st9 := addEdge (addEdge r8.2 p6.1 r8.1.1) r8.1.2 p2.1
          ((p1.1, p2.1), addEdge st9 p1.1 p2.1)
  | .While c s, st =>
      let r1 := astToCfg s st
      let p2 := addNode r1.2 (.whileGuard c)
      let p3 := addNode p2.2 .whileEndMark
      ((p2.1, p3.1), addEdge (addEdge (addEdge p3.2 p2.1 r1.1.1) r1.1.2 p3.1) p2.1 p3.1)
  | .Compound items, st => astToCfgSeq items st
  | .FuncDef b, st =>
      let r1 := astToCfg b st
      let p2 := addNode r1.2 .funcDefEntry
      let p3 := addNode p2.2 .funcDefEndMark
      ((p2.1, p3.1), addEdge (addEdge p3.2 p2.1 r1.1.1) r1.1.2 p3.1)
  | n, st =>
      let p := addNode st (.astNode n)
      ((p.1, p.1), p.2)
/-- The `Compound` chaining loop of `ast_to_cfg`; the empty statement list
leaves `first`/`last` as `None` (handle `0`). -/
def astToCfgSeq : List CNode → CfgState → (Nat × Nat) × CfgState
  | [], st => ((0, 0), st)
  | x :: xs, st =>
      let r := astToCfg x st
      astToCfgChain xs r.1.1 r.1.2 r.2
/-- Chain the remaining items: translate the next item, connect the previous
region's last vertex to its first vertex, continue. -/
def astToCfgChain : List CNode → Nat → Nat → CfgState → (Nat × Nat) × CfgState
  | [], first, last, st => ((first, last), st)
  | y :: ys, first, lastPrev, st =>
      let r := astToCfg y st
      astToCfgChain ys first r.1.2 (addEdge r.2 lastPrev r.1.1)
end

/-! ## The graphs of `ControlFlowGraph`'s region utilities (src/cfg.py:35-88)

`get_subgraph_between_nodes` and `insert_graph` act on an arbitrary digraph
whose vertices, in the model, are the natural-number handles. -/

/-- A digraph over handles. -/
structure Graph where
  nodes : List Nat
  edges : List (Nat × Nat)
deriving DecidableEq

/-- `self.successors(v)`: the targets of the edges leaving `v`, in insertion
order. -/
def successors (g : Graph) (v : Nat) : List Nat :=
  (g.edges.filter (fun e => e.1 == v)).map (fun e => e.2)

/-- Python `set.add`: no duplicates. -/
def addSet (x : Nat) (l : List Nat) : List Nat :=
  if x ∈ l then l else l ++ [x]

/-- The state of the frontier search of `get_subgraph_between_nodes`
(src/cfg.py:35): the accumulated `nodes` set and the `to_visit` frontier. -/
structure SearchState where
  found : List Nat
  toVisit : List Nat
deriving DecidableEq

/-- One pass of the `while len(to_visit) > 0` loop (src/cfg.py:45-52):
iterate over a snapshot of `to_visit`; remove each element; unless it *is*
`end`, add all its successors to both `to_visit` and `nodes`.  Python
iterates a `set` in unspecified order; the model fixes the list order, and
every property proved about the search is order-independent. -/
def searchPass (g : Graph) (e : Nat) (st : SearchState) : SearchState :=
  st.toVisit.foldl (fun acc tv =>
    let acc1 : SearchState := { acc with toVisit := acc.toVisit.erase tv }
    if tv ≠ e then
      (successors g tv).foldl
        (fun acc2 s => { found := addSet s acc2.found, toVisit := addSet s acc2.toVisit })
        acc1
    else acc1) st

/-- The whole loop, driven by explicit fuel: `none` means the fuel ran out
before `to_visit` emptied (the Python loop simply has not terminated yet). -/
def searchAux (g : Graph) (e : Nat) : Nat → SearchState → Option SearchState
  | 0, st => if st.toVisit.isEmpty then some st else none
  | fuel + 1, st =>
      if st.toVisit.isEmpty then some st
      else searchAux g e fuel (searchPass g e st)

/-- `g.subgraph(nodes)`: the subgraph induced on `ns ∩ g.nodes`. -/
def inducedSubgraph (g : Graph) (ns : List Nat) : Graph :=
  { nodes := ns.filter (fun v => v ∈ g.nodes),
    edges := g.edges.filter (fun e => e.1 ∈ ns ∧ e.2 ∈ ns) }

/-- `get_subgraph_between_nodes(self, start, end)` (src/cfg.py:35): seed
both sets with `start`, run the frontier search, then add `end`
unconditionally and return the induced subgraph. -/
def get_subgraph_between_nodes (g : Graph) (s e : Nat) (fuel : Nat) :
    Option Graph :=
  match searchAux g e fuel ⟨[s], [s]⟩ with
  | some st => some (inducedSubgraph g (addSet e st.found))
  | none => none

/-! ## `insert_graph` (src/cfg.py:58) -/

/-- The largest handle mentioned by the graph (vertices or edge endpoints);
fresh handles for a deep copy start above it. -/
def maxId (g : Graph) : Nat :=
  max (g.nodes.foldr max 0)
    (g.edges.foldr (fun e acc => max (max e.1 e.2) acc) 0)

/-- `copy.deepcopy(graph)`: every node object of the copy is a fresh
identity — modelled by shifting every handle beyond the host graph's. -/
def relabelGraph (g : Graph) (base : Nat) : Graph :=
  { nodes := g.nodes.map (fun v => v + base),
    edges := g.edges.map (fun e => (e.1 + base, e.2 + base)) }

/-- `v` has no incoming edge from `remaining` — the Kahn selection test. -/
def noIncomingFrom (g : Graph) (remaining : List Nat) (v : Nat) : Bool :=
  !(remaining.any (fun u => (u, v) ∈ g.edges))

/-- Kahn's algorithm, deterministically picking the first eligible vertex in
list order.  `networkx.topological_sort` is also Kahn's algorithm with an
order depending on insertion history; every property proved below holds for
any topological order, so this determinization is harmless.  `none` models
the `NetworkXUnfeasible` error on a cyclic graph. -/
def topoSortAux (g : Graph) : Nat → List Nat → List Nat → Option (List Nat)
  | 0, remaining, acc => if remaining.isEmpty then some acc.reverse else none
  | fuel + 1, remaining, acc =>
      if remaining.isEmpty then some acc.reverse
      else
        match remaining.find? (noIncomingFrom g remaining) with
        | some v => topoSortAux g fuel (remaining.erase v) (v :: acc)
        | none => none

/-- `list(nx.topological_sort(graph))`. -/
def topoSort (g : Graph) : Option (List Nat) :=
  topoSortAux g g.nodes.length g.nodes []

/-- `insert_graph(self, place, graph)` (src/cfg.py:58): if the inserted
graph is non-empty, deep-copy it (fresh identities), merge the copy's
vertices and edges into the host (`nx.union` + `update`), topologically sort
the copy, snapshot `place`'s successors, remove every outgoing edge of
`place`, and add the single edge `place → first-of-copy`.  (The source also
snapshots `place`'s predecessors into a variable it never uses.)  `none`
models the exception `nx.topological_sort` raises on a cyclic copy. -/
def insert_graph (g : Graph) (place : Nat) (sub : Graph) : Option Graph :=
  if sub.nodes.length > 0 then
    let base := maxId g + 1
    let copy := relabelGraph sub base
    let merged : Graph := ⟨g.nodes ++ copy.nodes, g.edges ++ copy.edges⟩
    match topoSort copy with
    | some order =>
        let firstNode := order.headD 0
        let oldSucc := successors merged place
        let pruned := merged.edges.filter (fun e => !(e.1 == place && e.2 ∈ oldSucc))
        some ⟨merged.nodes, (place, firstNode) :: pruned⟩
    | none => none
  else some g

/-! ## Shared concrete examples (used by witnesses and counterexamples) -/

/-- The sync-variable mapping of the worked example in the `unfold`
docstring: `{'round': 'round', 'mbox': 'mbox'}`. -/
def exSyncVars : SyncVars := ⟨"round", "mbox"⟩

/-- `x = 1;` — a plain statement. -/
def exA : CNode := .Assignment "=" (.ID "x") (.Constant "1")

/-- `y = 2;` — another plain statement. -/
def exB : CNode := .Assignment "=" (.ID "y") (.Constant "2")

/-- `round == 1` — a guard condition. -/
def exCond : CNode := .BinaryOp "==" (.ID "round") (.Constant "1")

/-- A function whose body contains no loop at all. -/
def exNoLoopAst : CNode := .FuncDef (.Compound [exA])

/-! ## C2 -/

/-- `enum round;` declared with role name `round`. -/
def exD : CNode := .Decl "round" (.enumType "round" "phase")

/-- The generation-0 copy of `exD`. -/
def exD0 : CNode := .Decl "round_0" (.enumType "round_0" "phase")

/-- The generation-1 copy of `exD`. -/
def exD1 : CNode := .Decl "round_1" (.enumType "round_1" "phase")

/-! ## C3 -/

mutual
/-- Does the subtree contain a `Continue` anywhere? -/
def hasContinue : CNode → Bool
  | .Continue => true
  | .BinaryOp _ l r => hasContinue l || hasContinue r
  | .UnaryOp _ a => hasContinue a
  | .Assignment _ l r => hasContinue l || hasContinue r
  | .FuncCall c args => hasContinue c || hasContinueList args
  | .If c t ff => hasContinue c || hasContinue t || hasContinueOpt ff
  | .While c s => hasContinue c || hasContinue s
  | .Compound items => hasContinueList items
  | .FileAST ext => hasContinueList ext
  | .FuncDef b => hasContinue b
  | _ => false
def hasContinueList : List CNode → Bool
  | [] => false
  | x :: xs => hasContinue x || hasContinueList xs
def hasContinueOpt : Option CNode → Bool
  | none => false
  | some x => hasContinue x
end

/-! ## C7 -/


@[simp] theorem addEdge_nextId (st : CfgState) (a b : Nat) :
    (addEdge st a b).nextId = st.nextId := rfl

@[simp] theorem addEdge_edges (st : CfgState) (a b : Nat) :
    (addEdge st a b).edges = (a, b) :: st.edges := rfl

@[simp] theorem addNode_fst (st : CfgState) (lab : VLabel) :
    (addNode st lab).1 = st.nextId := rfl

@[simp] theorem addNode_nextId (st : CfgState) (lab : VLabel) :
    ((addNode st lab).2).nextId = st.nextId + 1 := rfl

@[simp] theorem addNode_edges (st : CfgState) (lab : VLabel) :
    ((addNode st lab).2).edges = st.edges := rfl

/-- Arena well-formedness: at least one handle has been reserved (handle `0`
is Python's `None`) and every registered edge mentions only already
allocated handles. -/
def CfgWF (st : CfgState) : Prop :=
  1 ≤ st.nextId ∧ ∀ p q, (p, q) ∈ st.edges → p < st.nextId ∧ q < st.nextId

/-! ## C8 -/

/-- Reachability from `s` along `g`'s edges in which `e` is never expanded:
the vertices the frontier search can discover (beyond the unconditional `s`
and `e`). -/
inductive ReachA (g : Graph) (e s : Nat) : Nat → Prop where
  | refl : ReachA g e s s
  | step {v w : Nat} : ReachA g e s v → v ≠ e → (v, w) ∈ g.edges → ReachA g e s w

/-- The searched-nodes invariant: everything in `found` and `toVisit` is `s`
itself or reachable without expanding `e`. -/
def SearchInv (g : Graph) (e s : Nat) (st : SearchState) : Prop :=
  s ∈ st.found
  ∧ (∀ x ∈ st.found, x = s ∨ ReachA g e s x)
  ∧ (∀ x ∈ st.toVisit, x = s ∨ ReachA g e s x)

/-! ## C5 -/

/-- A node that is neither a branching construct nor a block nor a
`Continue`: the plain statements a well-formed handler branch is made of. -/
def isSimple : CNode → Bool
  | .If _ _ _ => false
  | .While _ _ => false
  | .Compound _ => false
  | .FileAST _ => false
  | .FuncDef _ => false
  | .Continue => false
  | _ => true

mutual
/-- Nesting depth of conditionals: how many levels of handlers sit inside a
node (the measure behind "k levels of nested handler expansion"). -/
def nestDepth : CNode → Nat
  | .If _ t _ => 1 + nestDepth t
  | .Compound items => nestDepthList items
  | _ => 0
def nestDepthList : List CNode → Nat
  | [] => 0
  | x :: xs => max (nestDepth x) (nestDepthList xs)
end

/-- The shape of a well-formed `upon` handler in the iteration template: a
conditional with no else branch whose body is plain statements followed by a
final `continue`. -/
def goodHandler (n : CNode) : Prop :=
  ∃ c hs, n = .If c (.Compound (hs ++ [.Continue])) none
    ∧ ∀ m ∈ hs, isSimple m = true

/-- The precondition shape of the main-loop body (src/syntaxlib/ast.py:52):
every top-level statement is plain or a handler, and at least one handler
exists. -/
def goodTmpl (tmpl : List CNode) : Prop :=
  (∀ n ∈ tmpl, isSimple n = true ∨ goodHandler n) ∧ ∃ n ∈ tmpl, isIf n = true

/-- The shape of a handler branch fed to the recursive expansion: plain
statements then a final `continue`. -/
def goodBranch (b : List CNode) : Prop :=
  ∃ bs, b = bs ++ [.Continue] ∧ ∀ m ∈ bs, isSimple m = true

/-- `while (1)` — the main-loop guard of the worked example. -/
def exW : CNode := .Constant "1"

/-- A well-formed iteration template: one plain statement and one `upon`
handler whose body is a plain statement followed by `continue`. -/
def exTmpl : List CNode := [exA, .If exCond (.Compound [exB, .Continue]) none]

theorem mapDfsSplice_compound (body items : List CNode) :
    mapDfsSplice body (.Compound items) = .Compound (mapDfsSpliceItems body items) := by
  rw [mapDfsSplice, mapDfsSpliceItems]
  split <;> rfl

/-! ## C6 -/

/-- C6: for every `Conditional` AST node, the CFG translation adds an edge
from the conditional's entry marker directly to its exit marker, regardless
of whether a false branch exists, so a path skipping both branches is always
present in the resulting graph (src/cfg.py:173 runs unconditionally). -/
theorem C6_conditional_always_skip_edge (c t : CNode) (ff : Option CNode)
    (st : CfgState) :
    ((astToCfg (.If c t ff) st).1.1, (astToCfg (.If c t ff) st).1.2)
      ∈ (astToCfg (.If c t ff) st).2.edges := by
  cases ff <;> simp [astToCfg, addEdge, addNode]

/-! ## C1 -/

mutual
/-- If a subtree contains no `While`, `MainWhileVisitor` never records
anything, so the threaded accumulator comes back unchanged. -/
theorem gmwNode_no_while : ∀ (acc : Option CNode) (n : CNode),
    hasWhile n = false → gmwNode acc n = acc
  | acc, .ID _, _ => rfl
  | acc, .Constant _, _ => rfl
  | acc, .BinaryOp _ l r, h => by
      rw [hasWhile] at h
      rw [gmwNode, gmwNode_no_while acc l (by revert h; cases hasWhile l <;> simp),
          gmwNode_no_while acc r (by revert h; cases hasWhile r <;> simp)]
  | acc, .UnaryOp _ a, h => by
      rw [hasWhile] at h
      rw [gmwNode, gmwNode_no_while acc a h]
  | acc, .Assignment _ l r, h => by
      rw [hasWhile] at h
      rw [gmwNode, gmwNode_no_while acc l (by revert h; cases hasWhile l <;> simp),
          gmwNode_no_while acc r (by revert h; cases hasWhile r <;> simp)]
  | acc, .FuncCall c args, h => by
      rw [hasWhile] at h
      rw [gmwNode, gmwNode_no_while acc c (by revert h; cases hasWhile c <;> simp),
          gmwList_no_while acc args (by revert h; cases hasWhileList args <;> simp)]
  | acc, .Decl _ _, _ => rfl
  | acc, .Continue, _ => rfl
  | acc, .If c t ff, h => by
      rw [hasWhile] at h
      rw [gmwNode, gmwNode_no_while acc c (by revert h; cases hasWhile c <;> simp),
          gmwNode_no_while acc t (by revert h; cases hasWhile t <;> cases hasWhile c <;> simp),
          gmwOpt_no_while acc ff (by revert h; cases hasWhileOpt ff <;> simp)]
  | acc, .Compound items, h => by
      rw [hasWhile] at h
      rw [gmwNode, gmwList_no_while acc items h]
  | acc, .FileAST ext, h => by
      rw [hasWhile] at h
      rw [gmwNode, gmwList_no_while acc ext h]
  | acc, .FuncDef b, h => by
      rw [hasWhile] at h
      rw [gmwNode, gmwNode_no_while acc b h]
theorem gmwList_no_while : ∀ (acc : Option CNode) (l : List CNode),
    hasWhileList l = false → gmwList acc l = acc
  | acc, [], _ => rfl
  | acc, x :: xs, h => by
      rw [hasWhileList] at h
      rw [gmwList, gmwNode_no_while acc x (by revert h; cases hasWhile x <;> simp),
          gmwList_no_while acc xs (by revert h; cases hasWhileList xs <;> simp)]
theorem gmwOpt_no_while : ∀ (acc : Option CNode) (o : Option CNode),
    hasWhileOpt o = false → gmwOpt acc o = acc
  | acc, none, _ => rfl
  | acc, some x, h => by
      rw [hasWhileOpt] at h
      rw [gmwOpt, gmwNode_no_while acc x h]
end

/-- C1 (amended): on an AST containing no `Loop`, `unfold` does fail — but
with a generic attribute error (the very next line dereferences the `None`
that `get_main_while` returned), not with a `PreconditionError`; no
`PreconditionError` (nor any explicit raise) exists in the operation. -/
theorem C1_no_loop_generic_failure (ast : CNode) (k : Nat) (sv : SyncVars)
    (h : hasWhile ast = false) :
    unfold ast k sv = .error .attributeError := by
  have hm : get_main_while ast = none := gmwNode_no_while none ast h
  rw [unfold, hm]

/-- C1 witness: the loop-free example function indeed makes `unfold` fail
with the generic attribute error. -/
theorem C1_no_loop_generic_failure_witness :
    hasWhile exNoLoopAst = false
    ∧ unfold exNoLoopAst 1 exSyncVars = .error .attributeError :=
  ⟨rfl, C1_no_loop_generic_failure exNoLoopAst 1 exSyncVars rfl⟩

/-- C1 counterexample: on a loop-free AST, `unfold` does **not** report a
`PreconditionError` to its caller — the failure it produces is the generic
attribute error. -/
theorem C1_counterexample :
    unfold exNoLoopAst 1 exSyncVars = .error .attributeError
    ∧ unfold exNoLoopAst 1 exSyncVars ≠ .error .preconditionError := by
  constructor
  · rfl
  · intro h
    rw [show unfold exNoLoopAst 1 exSyncVars = .error .attributeError from rfl] at h
    simp at h

/-- Folding the per-declaration step over unmatched declarations leaves the
accumulated front unchanged. -/
theorem declFront_go_no_match (vars : List String) (k : Nat) :
    ∀ (l : List CNode) (acc : List CNode),
      (∀ x ∈ l, declMatches vars x = false) →
      l.foldl (fun acc d => if declMatches vars d then declCopies k d ++ acc else acc) acc
        = acc
  | [], _, _ => rfl
  | x :: xs, acc, h => by
      have hx : declMatches vars x = false := h x (List.mem_cons_self x xs)
      rw [List.foldl_cons, if_neg (by simp [hx]),
        declFront_go_no_match vars k xs acc (fun y hy => h y (List.mem_cons_of_mem x hy))]

/-- Pushing mapped elements one by one at the front reverses their order. -/
theorem foldl_cons_reverse (c : Nat → CNode) :
    ∀ (l : List Nat) (acc : List CNode),
      l.foldl (fun a i => c i :: a) acc = (l.map c).reverse ++ acc
  | [], _ => rfl
  | x :: xs, acc => by
      rw [List.foldl_cons, foldl_cons_reverse c xs (c x :: acc)]
      simp

/-- The copies of one declaration are its generation copies `_0 .. _k` in
**descending** order (each `insert(0, ...)` pushes in front of the previous). -/
theorem declCopies_eq_reverse_range (k : Nat) (d : CNode) :
    declCopies k d = ((List.range (k + 1)).map (declCopy d)).reverse := by
  rw [declCopies, foldl_cons_reverse]
  simp

/-- C2 (amended): for a recognized declaration in a statement sequence,
exactly `k+1` copies suffixed `_0 .. _k` are synthesized, but they are
inserted at the **front** of the enclosing sequence (index 0), not
immediately before the original declaration, and they appear in descending
generation order `_k, ..., _0`; the pre-existing sequence follows them
unchanged. -/
theorem C2_declaration_phase_front_descending (vars : List String) (k : Nat)
    (d : CNode) (xs ys : List CNode)
    (hd : declMatches vars d = true)
    (hxs : ∀ x ∈ xs, declMatches vars x = false)
    (hys : ∀ y ∈ ys, declMatches vars y = false)
    (hflat : declPhaseList vars k (xs ++ d :: ys) = xs ++ d :: ys) :
    declPhase vars k (.Compound (xs ++ d :: ys))
      = .Compound (declCopies k d ++ (xs ++ d :: ys))
    ∧ declCopies k d = ((List.range (k + 1)).map (declCopy d)).reverse
    ∧ (declCopies k d).length = k + 1 := by
  refine ⟨?_, declCopies_eq_reverse_range k d, ?_⟩
  · rw [declPhase, hflat, declFront]
    rw [List.foldl_append, declFront_go_no_match vars k xs [] hxs, List.foldl_cons,
      if_pos hd, List.append_nil, declFront_go_no_match vars k ys (declCopies k d) hys]
  · rw [declCopies_eq_reverse_range]
    simp

/-- C2 witness: one matched enum declaration of role `round`, preceded by an
unrelated statement, with `k = 1`. -/
theorem C2_declaration_phase_front_descending_witness :
    declPhase ["round"] 1 (.Compound [exA, exD])
      = .Compound (declCopies 1 exD ++ [exA, exD])
    ∧ declCopies 1 exD = ((List.range 2).map (declCopy exD)).reverse
    ∧ (declCopies 1 exD).length = 2 := by
  have h := C2_declaration_phase_front_descending ["round"] 1 exD [exA] []
    rfl
    (by intro x hx; rw [List.mem_singleton] at hx; subst hx; rfl)
    (by intro y hy; exact absurd hy (List.not_mem_nil y))
    rfl
  exact h

/-- C2 counterexample: with `k = 1` and the sequence `[x = 1;, enum round;]`
the two copies land at the front in the order `round_1, round_0` — not
immediately before the original in the order `round_0, round_1` as the
claim states. -/
theorem C2_counterexample :
    declPhase ["round"] 1 (.Compound [exA, exD]) = .Compound [exD1, exD0, exA, exD]
    ∧ (CNode.Compound [exD1, exD0, exA, exD]) ≠ .Compound [exA, exD0, exD1, exD] := by
  constructor
  · rfl
  · intro h
    simp only [CNode.Compound.injEq, List.cons.injEq] at h
    exact absurd h.1 (by rw [exD1, exA]; intro h2; cases h2)

/-- A node that is a `Continue` certainly contains one. -/
theorem isContinue_imp_hasContinue (x : CNode) (h : isContinue x = true) :
    hasContinue x = true := by
  cases x <;> first | rfl | exact Bool.noConfusion h

/-- A member with a `Continue` makes the whole list have one. -/
theorem mem_hasContinueList (x : CNode) : ∀ (items : List CNode),
    x ∈ items → hasContinue x = true → hasContinueList items = true
  | [], hx, _ => absurd hx (List.not_mem_nil x)
  | y :: ys, hx, hc => by
      rw [hasContinueList]
      rcases List.mem_cons.mp hx with h1 | h2
      · subst h1; rw [hc]; rfl
      · rw [mem_hasContinueList x ys h2 hc]; simp

/-- The splice loop skips non-`Continue` snapshot elements. -/
theorem foldl_spliceStep_no_continue (body : List CNode) :
    ∀ (l st : List CNode), (∀ x ∈ l, isContinue x = false) →
      l.foldl (spliceStep body) st = st
  | [], _, _ => rfl
  | x :: xs, st, h => by
      rw [List.foldl_cons]
      rw [show spliceStep body st x = st by
            simp only [spliceStep, h x (List.mem_cons_self x xs)]; simp]
      exact foldl_spliceStep_no_continue body xs st
        (fun y hy => h y (List.mem_cons_of_mem x hy))

/-- Removing the leftmost `Continue` from `xs ++ Continue :: rest` removes
exactly the explicit one when `xs` has none. -/
theorem removeFirstContinue_append (xs rest : List CNode)
    (h : ∀ x ∈ xs, isContinue x = false) :
    removeFirstContinue (xs ++ .Continue :: rest) = xs ++ rest := by
  induction xs with
  | nil => rfl
  | cons x xs ih =>
      rw [List.cons_append, removeFirstContinue,
        if_neg (by simp [h x (List.mem_cons_self x xs)]), List.cons_append,
        ih (fun y hy => h y (List.mem_cons_of_mem x hy))]

/-- The whole `insert_node_after_continue` loop on a branch whose single
direct `Continue` is its final statement: the template copy is appended just
before that `Continue`, everything in front — nested conditionals included —
untouched. -/
theorem insert_node_single_final_continue (body xs : List CNode)
    (h : ∀ x ∈ xs, isContinue x = false) :
    insert_node_after_continue_items body (xs ++ [.Continue])
      = xs ++ body ++ [.Continue] := by
  rw [insert_node_after_continue_items, List.foldl_append,
    foldl_spliceStep_no_continue body xs _ h, List.foldl_cons]
  rw [show spliceStep body (xs ++ [.Continue]) .Continue = xs ++ body ++ [.Continue] by
        simp only [spliceStep, isContinue, if_pos]
        rw [removeFirstContinue_append xs [] h]
        simp]
  rfl

mutual
/-- A subtree with no `Continue` anywhere is left untouched by the splice
walk — the silent no-op of `insert_node_after_continue` under `map_dfs`. -/
theorem mapDfsSplice_no_continue (body : List CNode) : ∀ (n : CNode),
    hasContinue n = false → mapDfsSplice body n = n
  | .ID _, _ => rfl
  | .Constant _, _ => rfl
  | .BinaryOp _ _ _, _ => rfl
  | .UnaryOp _ _, _ => rfl
  | .Assignment _ _ _, _ => rfl
  | .FuncCall _ _, _ => rfl
  | .Decl _ _, _ => rfl
  | .Continue, h => by rw [hasContinue] at h; cases h
  | .If c t ff, h => by
      rw [hasContinue] at h
      rw [mapDfsSplice,
        mapDfsSplice_no_continue body t
          (by revert h; cases hasContinue t <;> cases hasContinue c <;>
              cases hasContinueOpt ff <;> simp),
        mapDfsSpliceOpt_no_continue body ff
          (by revert h; cases hasContinueOpt ff <;> simp)]
  | .While c s, h => by
      rw [hasContinue] at h
      rw [mapDfsSplice,
        mapDfsSplice_no_continue body s
          (by revert h; cases hasContinue s <;> cases hasContinue c <;> simp)]
  | .Compound items, h => by
      rw [hasContinue] at h
      have hany : items.any isContinue = false := by
        rw [List.any_eq_false]
        intro x hx
        intro hct
        have hli : hasContinueList items = true :=
          mem_hasContinueList x items hx (isContinue_imp_hasContinue x hct)
        rw [h] at hli; cases hli
      rw [mapDfsSplice, if_neg (by simp [hany]),
        mapDfsSpliceList_no_continue body items h]
  | .FileAST ext, h => by
      rw [hasContinue] at h
      rw [mapDfsSplice, mapDfsSpliceList_no_continue body ext h]
  | .FuncDef b, h => by
      rw [hasContinue] at h
      rw [mapDfsSplice, mapDfsSplice_no_continue body b h]
theorem mapDfsSpliceList_no_continue (body : List CNode) : ∀ (l : List CNode),
    hasContinueList l = false → mapDfsSpliceList body l = l
  | [], _ => rfl
  | x :: xs, h => by
      rw [hasContinueList] at h
      rw [mapDfsSpliceList,
        mapDfsSplice_no_continue body x
          (by revert h; cases hasContinue x <;> simp),
        mapDfsSpliceList_no_continue body xs
          (by revert h; cases hasContinueList xs <;> simp)]
theorem mapDfsSpliceOpt_no_continue (body : List CNode) : ∀ (o : Option CNode),
    hasContinueOpt o = false → mapDfsSpliceOpt body o = o
  | none, _ => rfl
  | some x, h => by
      rw [hasContinueOpt] at h
      rw [mapDfsSpliceOpt, mapDfsSplice_no_continue body x h]
end

/-- C3 (amended): the recursive search descends only through compounds with
no direct `Continue`.  In a compound that directly contains one, each direct
`Continue` is removed and re-appended at the compound's end preceded by a
fresh copy of the template statements — for the well-formed branch whose
single direct `Continue` is its final statement this places the copy
immediately before it — and nested conditionals inside that compound are
**not** searched (their inner `Continue`s receive no splice).  A handler
whose branch contains no `Continue` anywhere receives no splice and raises
no error. -/
theorem C3_splice_before_final_continue :
    (∀ (body xs : List CNode), (∀ x ∈ xs, isContinue x = false) →
      mapDfsSplice body (.Compound (xs ++ [.Continue]))
        = .Compound (xs ++ body ++ [.Continue]))
    ∧ (∀ (body : List CNode) (n : CNode), hasContinue n = false →
      mapDfsSplice body n = n) := by
  constructor
  · intro body xs h
    rw [mapDfsSplice_compound, mapDfsSpliceItems,
      if_pos (by rw [List.any_append]; simp [isContinue]),
      insert_node_single_final_continue body xs h]
  · exact fun body n h => mapDfsSplice_no_continue body n h

/-- C3 witness: a branch `[if(round==1){continue;}, continue]` gets the
template spliced before its final `Continue` with the nested conditional's
own `Continue` untouched, and a branch with no `Continue` is a no-op. -/
theorem C3_splice_before_final_continue_witness :
    mapDfsSplice [exA] (.Compound [.If exCond (.Compound [.Continue]) none, .Continue])
      = .Compound ([.If exCond (.Compound [.Continue]) none] ++ [exA] ++ [.Continue])
    ∧ mapDfsSplice [exA] (.Compound [exB]) = .Compound [exB] :=
  ⟨C3_splice_before_final_continue.1 [exA] [.If exCond (.Compound [.Continue]) none]
      (by intro x hx; rw [List.mem_singleton] at hx; subst hx; rfl),
   C3_splice_before_final_continue.2 [exA] (.Compound [exB]) rfl⟩

/-- C3 counterexample: in the branch `[if(round==1){continue;}, continue]`
the `Continue` nested in the conditional's true branch is found by no
splice: the enclosing compound has a direct `Continue`, the callback returns
`False`, and the walk never descends — contradicting the claim that *every*
`Continue`, including those inside nested conditional true branches,
receives the template copy. -/
theorem C3_counterexample :
    mapDfsSplice [exA] (.Compound [.If exCond (.Compound [.Continue]) none, .Continue])
      = .Compound [.If exCond (.Compound [.Continue]) none, exA, .Continue]
    ∧ (CNode.Compound [.If exCond (.Compound [.Continue]) none, exA, .Continue])
      ≠ .Compound [.If exCond (.Compound [exA, .Continue]) none, exA, .Continue] := by
  constructor
  · rfl
  · intro h
    simp only [CNode.Compound.injEq, List.cons.injEq, CNode.If.injEq] at h
    have h2 := h.1.2.1
    simp only [CNode.Compound.injEq, List.cons.injEq] at h2
    have h3 := h2.1
    rw [exA] at h3
    cases h3

/-! ## C4 -/

mutual
/-- Two successive `ID`-renaming walks compose pointwise. -/
theorem mapIDs_comp (f g : String → String) : ∀ (n : CNode),
    mapIDs g (mapIDs f n) = mapIDs (fun s => g (f s)) n
  | .ID _ => rfl
  | .Constant _ => rfl
  | .BinaryOp op l r => by
      rw [mapIDs, mapIDs, mapIDs_comp f g l, mapIDs_comp f g r]; rfl
  | .UnaryOp op a => by
      rw [mapIDs, mapIDs, mapIDs_comp f g a]; rfl
  | .Assignment op l r => by
      rw [mapIDs, mapIDs, mapIDs_comp f g l, mapIDs_comp f g r]; rfl
  | .FuncCall c args => by
      rw [mapIDs, mapIDs, mapIDs_comp f g c, mapIDsList_comp f g args]; rfl
  | .Decl n ty => rfl
  | .Continue => rfl
  | .If c t ff => by
      rw [mapIDs, mapIDs, mapIDs_comp f g c, mapIDs_comp f g t, mapIDsOpt_comp f g ff]
      rfl
  | .While c s => by
      rw [mapIDs, mapIDs, mapIDs_comp f g c, mapIDs_comp f g s]; rfl
  | .Compound items => by
      rw [mapIDs, mapIDs, mapIDsList_comp f g items]; rfl
  | .FileAST ext => by
      rw [mapIDs, mapIDs, mapIDsList_comp f g ext]; rfl
  | .FuncDef b => by
      rw [mapIDs, mapIDs, mapIDs_comp f g b]; rfl
theorem mapIDsList_comp (f g : String → String) : ∀ (l : List CNode),
    mapIDsList g (mapIDsList f l) = mapIDsList (fun s => g (f s)) l
  | [] => rfl
  | x :: xs => by
      rw [mapIDsList, mapIDsList, mapIDs_comp f g x, mapIDsList_comp f g xs]; rfl
theorem mapIDsOpt_comp (f g : String → String) : ∀ (o : Option CNode),
    mapIDsOpt g (mapIDsOpt f o) = mapIDsOpt (fun s => g (f s)) o
  | none => rfl
  | some x => by
      rw [mapIDsOpt, mapIDsOpt, mapIDs_comp f g x]; rfl
end

/-- C4: the rename pass that `_unfold` applies to the non-conditional
statements of a branch (src/syntaxlib/ast.py:139-143) maps, in one sweep,
every occurrence of role `round` to generation `iteration` unconditionally
and every occurrence of role `mbox` to generation `iteration-1` exactly when
`iteration > 0`, keeping the unsuffixed base name at `iteration = 0` — so
the `mbox` generation always lags the `round` generation by one in the same
scope.  (The two hypotheses rule out degenerate role names: the two roles
must differ, and the suffixed `mbox` name must not collide with the `round`
role.) -/
theorem C4_upon_rename_mbox_lags_round (sv : SyncVars) (iteration : Nat)
    (stm : CNode)
    (h1 : sv.round ≠ sv.mbox)
    (h2 : rename_syncvar sv.mbox (iteration - 1) ≠ sv.round) :
    uponRename sv iteration stm
      = mapIDs (fun s =>
          if s = sv.round then rename_syncvar sv.round iteration
          else if s = sv.mbox then
            if 0 < iteration then rename_syncvar sv.mbox (iteration - 1) else sv.mbox
          else s) stm := by
  rw [uponRename]
  by_cases hi : 0 < iteration
  · rw [if_pos hi, rename_iterated_variables, rename_iterated_variables, mapIDs_comp]
    congr 1
    funext s
    simp only [List.mem_singleton]
    by_cases hr : s = sv.round
    · subst hr; simp [h1, hi]
    · by_cases hm : s = sv.mbox
      · subst hm; simp [h2, hr, hi]
      · simp [hr, hm]
  · rw [if_neg hi, rename_iterated_variables]
    congr 1
    funext s
    simp only [List.mem_singleton]
    by_cases hr : s = sv.round
    · subst hr; simp
    · by_cases hm : s = sv.mbox
      · subst hm; simp [hr, hi]
      · simp [hr, hm]

/-- C4 witness: at `iteration = 1` with the standard role names, the branch
statement `round = mbox;` becomes `round_1 = mbox_0;`. -/
theorem C4_upon_rename_mbox_lags_round_witness :
    uponRename exSyncVars 1 (.Assignment "=" (.ID "round") (.ID "mbox"))
      = .Assignment "=" (.ID "round_1") (.ID "mbox_0") := by
  rw [C4_upon_rename_mbox_lags_round exSyncVars 1 _ (by decide) (by decide)]
  rfl

mutual
/-- `ast_to_cfg` preserves arena well-formedness, never reuses a handle, and
returns region endpoints that are allocated. -/
theorem astToCfg_wf : ∀ (a : CNode) (st : CfgState), CfgWF st →
    CfgWF (astToCfg a st).2
    ∧ st.nextId ≤ (astToCfg a st).2.nextId
    ∧ (astToCfg a st).1.1 < (astToCfg a st).2.nextId
    ∧ (astToCfg a st).1.2 < (astToCfg a st).2.nextId
  | .If c t ff, st, h => by
      obtain ⟨hn, hed⟩ := h
      have e3 : ((addNode (addNode (addNode st .ifStartMark).2 .ifEndMark).2
          (.ifGuard c)).2).nextId = st.nextId + 3 := rfl
      have e3e : ((addNode (addNode (addNode st .ifStartMark).2 .ifEndMark).2
          (.ifGuard c)).2).edges = st.edges := rfl
      obtain ⟨⟨in1, in2⟩, ih2, ih3, ih4⟩ := astToCfg_wf t
        (addNode (addNode (addNode st .ifStartMark).2 .ifEndMark).2 (.ifGuard c)).2
        ⟨by rw [e3]; omega,
         by rw [e3e, e3]; intro p q hpq; have := hed p q hpq; omega⟩
      rw [e3] at ih2
      cases ff with
      | none =>
          refine ⟨⟨?_, ?_⟩, ?_, ?_, ?_⟩ <;>
            simp only [astToCfg, addNode_fst, addNode_nextId, addEdge_nextId,
              addEdge_edges, addNode_edges, List.mem_cons, Prod.mk.injEq]
          · omega
          · intro p q hpq
            rcases hpq with ⟨rfl, rfl⟩ | ⟨rfl, rfl⟩ | ⟨rfl, rfl⟩ | ⟨rfl, rfl⟩ | hpq
            · omega
            · have := ih4; omega
            · have := ih3; omega
            · omega
            · have := in2 p q hpq; omega
          · omega
          · omega
          · omega
      | some fb =>
          obtain ⟨⟨jn1, jn2⟩, jh2, jh3, jh4⟩ := astToCfg_wf fb
            (addEdge
              (addNode
                (addEdge (addEdge (addEdge
                  (astToCfg t (addNode (addNode (addNode st .ifStartMark).2
                      .ifEndMark).2 (.ifGuard c)).2).2
                  (addNode st .ifStartMark).1
                  (addNode (addNode (addNode st .ifStartMark).2 .ifEndMark).2
                    (.ifGuard c)).1)
                  (addNode (addNode (addNode st .ifStartMark).2 .ifEndMark).2
                    (.ifGuard c)).1
                  (astToCfg t (addNode (addNode (addNode st .ifStartMark).2
                      .ifEndMark).2 (.ifGuard c)).2).1.1)
                  (astToCfg t (addNode (addNode (addNode st .ifStartMark).2
                      .ifEndMark).2 (.ifGuard c)).2).1.2
                  (addNode (addNode st .ifStartMark).2 .ifEndMark).1)
                (.ifGuard (.UnaryOp "!" c))).2
              (addNode st .ifStartMark).1
              (addNode
                (addEdge (addEdge (addEdge
                  (astToCfg t (addNode (addNode (addNode st .ifStartMark).2
                      .ifEndMark).2 (.ifGuard c)).2).2
                  (addNode st .ifStartMark).1
                  (addNode (addNode (addNode st .ifStartMark).2 .ifEndMark).2
                    (.ifGuard c)).1)
                  (addNode (addNode (addNode st .ifStartMark).2 .ifEndMark).2
                    (.ifGuard c)).1
                  (astToCfg t (addNode (addNode (addNode st .ifStartMark).2
                      .ifEndMark).2 (.ifGuard c)).2).1.1)
                  (astToCfg t (addNode (addNode (addNode st .ifStartMark).2
                      .ifEndMark).2 (.ifGuard c)).2).1.2
                  (addNode (addNode st .ifStartMark).2 .ifEndMark).1)
                (.ifGuard (.UnaryOp "!" c))).1)
            ⟨by simp only [addEdge_nextId, addNode_nextId]; omega,
             by
              simp only [addEdge_nextId, addNode_nextId, addEdge_edges,
                addNode_edges, addNode_fst, List.mem_cons, Prod.mk.injEq]
              intro p q hpq
              rcases hpq with ⟨rfl, rfl⟩ | ⟨rfl, rfl⟩ | ⟨rfl, rfl⟩ | ⟨rfl, rfl⟩ | hpq
              · omega
              · have := ih4; omega
              · have := ih3; omega
              · omega
              · have := in2 p q hpq; omega⟩
          simp only [addEdge_nextId, addNode_nextId, addNode_fst] at jh2 jh3 jh4 jn1 jn2
          refine ⟨⟨?_, ?_⟩, ?_, ?_, ?_⟩ <;>
            simp only [astToCfg, addNode_fst, addNode_nextId, addEdge_nextId,
              addEdge_edges, addNode_edges, List.mem_cons, Prod.mk.injEq]
          · omega
          · intro p q hpq
            rcases hpq with ⟨rfl, rfl⟩ | ⟨rfl, rfl⟩ | ⟨rfl, rfl⟩ | hpq
            · omega
            · have := jh4; omega
            · have := jh3; omega
            · have := jn2 p q hpq
              omega
          · omega
          · omega
          · omega
  | .While c s, st, h => by
      obtain ⟨⟨in1, in2⟩, ih2, ih3, ih4⟩ := astToCfg_wf s st h
      refine ⟨⟨?_, ?_⟩, ?_, ?_, ?_⟩ <;>
        simp only [astToCfg, addNode_fst, addNode_nextId, addEdge_nextId,
          addEdge_edges, addNode_edges, List.mem_cons, Prod.mk.injEq]
      · omega
      · intro p q hpq
        rcases hpq with ⟨rfl, rfl⟩ | ⟨rfl, rfl⟩ | ⟨rfl, rfl⟩ | hpq
        · omega
        · have := ih4; omega
        · have := ih3; omega
        · have := in2 p q hpq; omega
      · omega
      · omega
      · omega
  | .Compound items, st, h => by
      simp only [astToCfg]
      exact astToCfgSeq_wf items st h
  | .FuncDef b, st, h => by
      obtain ⟨⟨in1, in2⟩, ih2, ih3, ih4⟩ := astToCfg_wf b st h
      refine ⟨⟨?_, ?_⟩, ?_, ?_, ?_⟩ <;>
        simp only [astToCfg, addNode_fst, addNode_nextId, addEdge_nextId,
          addEdge_edges, addNode_edges, List.mem_cons, Prod.mk.injEq]
      · omega
      · intro p q hpq
        rcases hpq with ⟨rfl, rfl⟩ | ⟨rfl, rfl⟩ | hpq
        · have := ih4; omega
        · have := ih3; omega
        · have := in2 p q hpq; omega
      · omega
      · omega
      · omega
  | .ID v, st, h => by
      obtain ⟨hn, hed⟩ := h
      refine ⟨⟨?_, ?_⟩, ?_, ?_, ?_⟩ <;>
        simp only [astToCfg, addNode_nextId, addNode_edges, addNode_fst]
      · omega
      · intro p q hpq; have := hed p q hpq; omega
      · omega
      · omega
      · omega
  | .Constant v, st, h => by
      obtain ⟨hn, hed⟩ := h
      refine ⟨⟨?_, ?_⟩, ?_, ?_, ?_⟩ <;>
        simp only [astToCfg, addNode_nextId, addNode_edges, addNode_fst]
      · omega
      · intro p q hpq; have := hed p q hpq; omega
      · omega
      · omega
      · omega
  | .BinaryOp op l r, st, h => by
      obtain ⟨hn, hed⟩ := h
      refine ⟨⟨?_, ?_⟩, ?_, ?_, ?_⟩ <;>
        simp only [astToCfg, addNode_nextId, addNode_edges, addNode_fst]
      · omega
      · intro p q hpq; have := hed p q hpq; omega
      · omega
      · omega
      · omega
  | .UnaryOp op a, st, h => by
      obtain ⟨hn, hed⟩ := h
      refine ⟨⟨?_, ?_⟩, ?_, ?_, ?_⟩ <;>
        simp only [astToCfg, addNode_nextId, addNode_edges, addNode_fst]
      · omega
      · intro p q hpq; have := hed p q hpq; omega
      · omega
      · omega
      · omega
  | .Assignment op l r, st, h => by
      obtain ⟨hn, hed⟩ := h
      refine ⟨⟨?_, ?_⟩, ?_, ?_, ?_⟩ <;>
        simp only [astToCfg, addNode_nextId, addNode_edges, addNode_fst]
      · omega
      · intro p q hpq; have := hed p q hpq; omega
      · omega
      · omega
      · omega
  | .FuncCall c args, st, h => by
      obtain ⟨hn, hed⟩ := h
      refine ⟨⟨?_, ?_⟩, ?_, ?_, ?_⟩ <;>
        simp only [astToCfg, addNode_nextId, addNode_edges, addNode_fst]
      · omega
      · intro p q hpq; have := hed p q hpq; omega
      · omega
      · omega
      · omega
  | .Decl n ty, st, h => by
      obtain ⟨hn, hed⟩ := h
      refine ⟨⟨?_, ?_⟩, ?_, ?_, ?_⟩ <;>
        simp only [astToCfg, addNode_nextId, addNode_edges, addNode_fst]
      · omega
      · intro p q hpq; have := hed p q hpq; omega
      · omega
      · omega
      · omega
  | .Continue, st, h => by
      obtain ⟨hn, hed⟩ := h
      refine ⟨⟨?_, ?_⟩, ?_, ?_, ?_⟩ <;>
        simp only [astToCfg, addNode_nextId, addNode_edges, addNode_fst]
      · omega
      · intro p q hpq; have := hed p q hpq; omega
      · omega
      · omega
      · omega
  | .FileAST ext, st, h => by
      obtain ⟨hn, hed⟩ := h
      refine ⟨⟨?_, ?_⟩, ?_, ?_, ?_⟩ <;>
        simp only [astToCfg, addNode_nextId, addNode_edges, addNode_fst]
      · omega
      · intro p q hpq; have := hed p q hpq; omega
      · omega
      · omega
      · omega
theorem astToCfgSeq_wf : ∀ (l : List CNode) (st : CfgState), CfgWF st →
    CfgWF (astToCfgSeq l st).2
    ∧ st.nextId ≤ (astToCfgSeq l st).2.nextId
    ∧ (astToCfgSeq l st).1.1 < (astToCfgSeq l st).2.nextId
    ∧ (astToCfgSeq l st).1.2 < (astToCfgSeq l st).2.nextId
  | [], st, h => ⟨h, le_refl _, by simpa [astToCfgSeq] using h.1,
      by simpa [astToCfgSeq] using h.1⟩
  | x :: xs, st, h => by
      obtain ⟨ih1, ih2, ih3, ih4⟩ := astToCfg_wf x st h
      obtain ⟨jh1, jh2, jh3, jh4⟩ := astToCfgChain_wf xs (astToCfg x st).1.1
        (astToCfg x st).1.2 (astToCfg x st).2 ih1 ih3 ih4
      exact ⟨jh1, le_trans ih2 jh2, jh3, jh4⟩
theorem astToCfgChain_wf : ∀ (l : List CNode) (first lastPrev : Nat) (st : CfgState),
    CfgWF st → first < st.nextId → lastPrev < st.nextId →
    CfgWF (astToCfgChain l first lastPrev st).2
    ∧ st.nextId ≤ (astToCfgChain l first lastPrev st).2.nextId
    ∧ (astToCfgChain l first lastPrev st).1.1 < (astToCfgChain l first lastPrev st).2.nextId
    ∧ (astToCfgChain l first lastPrev st).1.2 < (astToCfgChain l first lastPrev st).2.nextId
  | [], first, lastPrev, st, h, hf, hl => ⟨h, le_refl _, hf, hl⟩
  | y :: ys, first, lastPrev, st, h, hf, hl => by
      obtain ⟨⟨in1, in2⟩, ih2, ih3, ih4⟩ := astToCfg_wf y st h
      obtain ⟨jh1, jh2, jh3, jh4⟩ := astToCfgChain_wf ys first (astToCfg y st).1.2
        (addEdge (astToCfg y st).2 lastPrev (astToCfg y st).1.1)
        ⟨by simp only [addEdge_nextId]; omega,
         by
          simp only [addEdge_edges, addEdge_nextId, List.mem_cons, Prod.mk.injEq]
          intro p q hpq
          rcases hpq with ⟨rfl, rfl⟩ | hpq
          · exact ⟨lt_of_lt_of_le hl ih2, ih3⟩
          · exact in2 p q hpq⟩
        (by simp only [addEdge_nextId]; exact lt_of_lt_of_le hf ih2)
        (by simp only [addEdge_nextId]; exact ih4)
      simp only [addEdge_nextId] at jh2
      refine ⟨jh1, ?_, jh3, jh4⟩
      simp only [astToCfgChain]
      exact le_trans ih2 jh2
end

/-- C7: for a `Loop` node whose body translates to the region
`(B_first, B_last)`, the translation allocates the guard `G` and the
loop-exit marker `L_out`, adds **exactly** the edges `G→B_first`,
`B_last→L_out` and `G→L_out` on top of the body's graph, returns
`(G, L_out)`, and adds no back-edge `L_out→G` or `B_last→G`
(src/cfg.py:187-201). -/
theorem C7_while_no_back_edge (c body : CNode) (st : CfgState) (h : CfgWF st) :
    (astToCfg (.While c body) st).1
      = ((astToCfg body st).2.nextId, (astToCfg body st).2.nextId + 1)
    ∧ (astToCfg (.While c body) st).2.edges
      = ((astToCfg body st).2.nextId, (astToCfg body st).2.nextId + 1)
        :: ((astToCfg body st).1.2, (astToCfg body st).2.nextId + 1)
        :: ((astToCfg body st).2.nextId, (astToCfg body st).1.1)
        :: (astToCfg body st).2.edges
    ∧ ((astToCfg body st).2.nextId + 1, (astToCfg body st).2.nextId)
        ∉ (astToCfg (.While c body) st).2.edges
    ∧ ((astToCfg body st).1.2, (astToCfg body st).2.nextId)
        ∉ (astToCfg (.While c body) st).2.edges := by
  obtain ⟨⟨in1, in2⟩, ih2, ih3, ih4⟩ := astToCfg_wf body st h
  refine ⟨?_, ?_, ?_, ?_⟩
  · simp only [astToCfg, addNode_fst, addNode_nextId, addEdge_nextId]
  · simp only [astToCfg, addEdge_edges, addNode_edges, addNode_fst, addNode_nextId]
  · intro hmem
    simp only [astToCfg, addEdge_edges, addNode_edges, addNode_fst, addNode_nextId,
      List.mem_cons, Prod.mk.injEq] at hmem
    rcases hmem with ⟨h1, h2⟩ | ⟨h1, h2⟩ | ⟨h1, h2⟩ | hmem
    · omega
    · have := ih4; omega
    · omega
    · have := in2 _ _ hmem; omega
  · intro hmem
    simp only [astToCfg, addEdge_edges, addNode_edges, addNode_fst, addNode_nextId,
      List.mem_cons, Prod.mk.injEq] at hmem
    rcases hmem with ⟨h1, h2⟩ | ⟨h1, h2⟩ | ⟨h1, h2⟩ | hmem
    · have := ih4; omega
    · omega
    · have := ih4; omega
    · have := in2 _ _ hmem; omega

/-- C7 witness: translating `while(1){ x = 1; }` in the empty arena: the
leaf statement becomes handle `1`, the guard handle `2`, the exit marker
handle `3`; the edges are exactly `2→3`, `1→3`, `2→1` and neither `3→2` nor
`1→2` exists. -/
theorem C7_while_no_back_edge_witness :
    (astToCfg (.While (.Constant "1") exA) emptyCfg).1 = (2, 3)
    ∧ (astToCfg (.While (.Constant "1") exA) emptyCfg).2.edges
        = [(2, 3), (1, 3), (2, 1)]
    ∧ (3, 2) ∉ (astToCfg (.While (.Constant "1") exA) emptyCfg).2.edges
    ∧ (1, 2) ∉ (astToCfg (.While (.Constant "1") exA) emptyCfg).2.edges :=
  C7_while_no_back_edge (.Constant "1") exA emptyCfg
    ⟨le_refl 1, fun p q hpq => absurd hpq (List.not_mem_nil (p, q))⟩

/-- Membership in `successors` is membership of the edge. -/
theorem mem_successors (g : Graph) (v w : Nat) :
    w ∈ successors g v ↔ (v, w) ∈ g.edges := by
  simp only [successors, List.mem_map, List.mem_filter]
  constructor
  · rintro ⟨⟨p, q⟩, ⟨hm, hv⟩, rfl⟩
    simp only [beq_iff_eq] at hv
    subst hv
    exact hm
  · intro hm
    exact ⟨(v, w), ⟨hm, by simp⟩, rfl⟩

/-- Membership in a Python-set add. -/
theorem mem_addSet (x y : Nat) (l : List Nat) :
    x ∈ addSet y l ↔ x ∈ l ∨ x = y := by
  rw [addSet]
  split
  · constructor
    · exact fun h => Or.inl h
    · rintro (h | rfl)
      · exact h
      · assumption
  · simp [List.mem_append]

/-- Folding the successor-add step preserves the invariant, provided every
added successor is reachable. -/
theorem succFold_inv (g : Graph) (e s : Nat) :
    ∀ (ws : List Nat) (acc : SearchState),
      (∀ w ∈ ws, ReachA g e s w) → SearchInv g e s acc →
      SearchInv g e s (ws.foldl
        (fun acc2 w => { found := addSet w acc2.found, toVisit := addSet w acc2.toVisit })
        acc)
  | [], _, _, hinv => hinv
  | w :: ws, acc, hws, ⟨hs, hf, hv⟩ => by
      rw [List.foldl_cons]
      refine succFold_inv g e s ws _ (fun x hx => hws x (List.mem_cons_of_mem w hx))
        ⟨?_, ?_, ?_⟩
      · exact (mem_addSet s w acc.found).mpr (Or.inl hs)
      · intro x hx
        rcases (mem_addSet x w acc.found).mp hx with h | rfl
        · exact hf x h
        · exact Or.inr (hws x (List.mem_cons_self x ws))
      · intro x hx
        rcases (mem_addSet x w acc.toVisit).mp hx with h | rfl
        · exact hv x h
        · exact Or.inr (hws x (List.mem_cons_self x ws))

/-- One frontier pass preserves the invariant. -/
theorem searchPass_fold_inv (g : Graph) (e s : Nat) :
    ∀ (l : List Nat) (acc : SearchState),
      (∀ x ∈ l, x = s ∨ ReachA g e s x) → SearchInv g e s acc →
      SearchInv g e s (l.foldl
        (fun acc tv =>
          let acc1 : SearchState := { acc with toVisit := acc.toVisit.erase tv }
          if tv ≠ e then
            (successors g tv).foldl
              (fun acc2 w => { found := addSet w acc2.found, toVisit := addSet w acc2.toVisit })
              acc1
          else acc1)
        acc)
  | [], _, _, hinv => hinv
  | tv :: l, acc, hl, ⟨hs, hf, hv⟩ => by
      rw [List.foldl_cons]
      refine searchPass_fold_inv g e s l _
        (fun x hx => hl x (List.mem_cons_of_mem tv hx)) ?_
      have hacc1 : SearchInv g e s { acc with toVisit := acc.toVisit.erase tv } :=
        ⟨hs, hf, fun x hx => hv x (List.mem_of_mem_erase hx)⟩
      by_cases hte : tv = e
      · rw [if_neg (by simp [hte])]
        exact hacc1
      · simp only [ne_eq, hte, not_false_eq_true, if_true]
        refine succFold_inv g e s _ _ ?_ hacc1
        intro w hw
        have htv : ReachA g e s tv := by
          rcases hl tv (List.mem_cons_self tv l) with rfl | h
          · exact ReachA.refl
          · exact h
        exact ReachA.step htv hte ((mem_successors g tv w).mp hw)

/-- `searchPass` itself preserves the invariant. -/
theorem searchPass_inv (g : Graph) (e s : Nat) (st : SearchState)
    (h : SearchInv g e s st) : SearchInv g e s (searchPass g e st) :=
  searchPass_fold_inv g e s st.toVisit st h.2.2 h

/-- The whole fuelled loop preserves the invariant. -/
theorem searchAux_inv (g : Graph) (e s : Nat) :
    ∀ (fuel : Nat) (st0 st : SearchState),
      searchAux g e fuel st0 = some st → SearchInv g e s st0 → SearchInv g e s st
  | 0, st0, st, h, hinv => by
      rw [searchAux] at h
      split at h
      · cases h; exact hinv
      · cases h
  | fuel + 1, st0, st, h, hinv => by
      rw [searchAux] at h
      split at h
      · cases h; exact hinv
      · exact searchAux_inv g e s fuel (searchPass g e st0) st h
          (searchPass_inv g e s st0 hinv)

/-- C8: whenever the frontier search of `subgraph_between` terminates, its
result contains both `start` and `end` — `start` is seeded and never
removed, `end` is added unconditionally at the very end even when
unreachable — and every other vertex of the result is reachable from
`start` by a path that never expands `end` (so no vertex discoverable only
through successors of `end` can appear). -/
theorem C8_subgraph_between_endpoints (g : Graph) (s e : Nat) (fuel : Nat)
    (res : Graph)
    (hs : s ∈ g.nodes) (he : e ∈ g.nodes)
    (hrun : get_subgraph_between_nodes g s e fuel = some res) :
    s ∈ res.nodes ∧ e ∈ res.nodes
    ∧ ∀ x ∈ res.nodes, x = s ∨ x = e ∨ ReachA g e s x := by
  rw [get_subgraph_between_nodes] at hrun
  rcases hsearch : searchAux g e fuel ⟨[s], [s]⟩ with _ | st
  · rw [hsearch] at hrun; cases hrun
  · rw [hsearch] at hrun
    have hinv : SearchInv g e s st := searchAux_inv g e s fuel ⟨[s], [s]⟩ st hsearch
      ⟨List.mem_singleton.mpr rfl,
       fun x hx => Or.inl (List.mem_singleton.mp hx),
       fun x hx => Or.inl (List.mem_singleton.mp hx)⟩
    cases hrun
    refine ⟨?_, ?_, ?_⟩
    · simp only [inducedSubgraph, List.mem_filter, decide_eq_true_eq]
      exact ⟨(mem_addSet s e st.found).mpr (Or.inl hinv.1), hs⟩
    · simp only [inducedSubgraph, List.mem_filter, decide_eq_true_eq]
      exact ⟨(mem_addSet e e st.found).mpr (Or.inr rfl), he⟩
    · intro x hx
      simp only [inducedSubgraph, List.mem_filter, decide_eq_true_eq] at hx
      rcases (mem_addSet x e st.found).mp hx.1 with h | rfl
      · rcases hinv.2.1 x h with rfl | h2
        · exact Or.inl rfl
        · exact Or.inr (Or.inr h2)
      · exact Or.inr (Or.inl rfl)

/-- C8 witness: in the graph with vertices `{0, 1, 5}` and the single edge
`0→1`, searching from `0` to the disconnected `5` terminates and returns a
subgraph containing both `0` and `5`, every vertex being `0`, `5`, or
reachable from `0`. -/
theorem C8_subgraph_between_endpoints_witness :
    0 ∈ (Graph.mk [0, 1, 5] [(0, 1)]).nodes
    ∧ 5 ∈ (Graph.mk [0, 1, 5] [(0, 1)]).nodes
    ∧ get_subgraph_between_nodes (Graph.mk [0, 1, 5] [(0, 1)]) 0 5 3
        = some (Graph.mk [0, 1, 5] [(0, 1)])
    ∧ (0 ∈ (Graph.mk [0, 1, 5] [(0, 1)]).nodes
        ∧ 5 ∈ (Graph.mk [0, 1, 5] [(0, 1)]).nodes
        ∧ ∀ x ∈ (Graph.mk [0, 1, 5] [(0, 1)]).nodes,
            x = 0 ∨ x = 5 ∨ ReachA (Graph.mk [0, 1, 5] [(0, 1)]) 5 0 x) := by
  refine ⟨by decide, by decide, by rfl, ?_⟩
  exact C8_subgraph_between_endpoints (Graph.mk [0, 1, 5] [(0, 1)]) 0 5 3
    (Graph.mk [0, 1, 5] [(0, 1)]) (by decide) (by decide) (by rfl)

/-! ## C10 -/

/-- `addSet` keeps a duplicate-free list duplicate-free. -/
theorem addSet_nodup (y : Nat) (l : List Nat) (h : l.Nodup) : (addSet y l).Nodup := by
  rw [addSet]
  split
  · exact h
  · exact List.Nodup.append h (List.nodup_singleton y)
      (by simpa using fun hy => by simp_all)

/-- Folding successor adds preserves duplicate-freedom and any predicate
that holds of the old frontier and of every added vertex. -/
theorem succFold_toVisit_pred (P : Nat → Prop) :
    ∀ (ws : List Nat) (acc : SearchState),
      acc.toVisit.Nodup → (∀ x ∈ acc.toVisit, P x) → (∀ w ∈ ws, P w) →
      (ws.foldl
        (fun acc2 w => { found := addSet w acc2.found, toVisit := addSet w acc2.toVisit })
        acc).toVisit.Nodup
      ∧ ∀ x ∈ (ws.foldl
        (fun acc2 w => { found := addSet w acc2.found, toVisit := addSet w acc2.toVisit })
        acc).toVisit, P x
  | [], _, hnd, hP, _ => ⟨hnd, hP⟩
  | w :: ws, acc, hnd, hP, hws => by
      rw [List.foldl_cons]
      refine succFold_toVisit_pred P ws _ (addSet_nodup w _ hnd) ?_
        (fun x hx => hws x (List.mem_cons_of_mem w hx))
      intro x hx
      rcases (mem_addSet x w acc.toVisit).mp hx with h | rfl
      · exact hP x h
      · exact hws x (List.mem_cons_self x ws)

/-- One pass of the frontier loop: if every frontier vertex is a graph
vertex of topological rank at least `t`, afterwards every frontier vertex is
a graph vertex of rank at least `t+1` (each pass erases its whole snapshot
and only re-adds successors, which have strictly larger rank). -/
theorem searchPass_rank (g : Graph) (e : Nat) (rank : Nat → Nat) (t : Nat)
    (hrank : ∀ p q, (p, q) ∈ g.edges → rank p < rank q)
    (hclosed : ∀ p q, (p, q) ∈ g.edges → q ∈ g.nodes) :
    ∀ (l : List Nat) (acc : SearchState),
      (∀ tv ∈ l, t ≤ rank tv) →
      acc.toVisit.Nodup →
      (∀ x ∈ acc.toVisit,
        (x ∈ l ∧ x ∈ g.nodes ∧ t ≤ rank x) ∨ (x ∈ g.nodes ∧ t + 1 ≤ rank x)) →
      (l.foldl
        (fun acc tv =>
          let acc1 : SearchState := { acc with toVisit := acc.toVisit.erase tv }
          if tv ≠ e then
            (successors g tv).foldl
              (fun acc2 w => { found := addSet w acc2.found, toVisit := addSet w acc2.toVisit })
              acc1
          else acc1)
        acc).toVisit.Nodup
      ∧ ∀ x ∈ (l.foldl
        (fun acc tv =>
          let acc1 : SearchState := { acc with toVisit := acc.toVisit.erase tv }
          if tv ≠ e then
            (successors g tv).foldl
              (fun acc2 w => { found := addSet w acc2.found, toVisit := addSet w acc2.toVisit })
              acc1
          else acc1)
        acc).toVisit, x ∈ g.nodes ∧ t + 1 ≤ rank x
  | [], _, _, hnd, hinv => by
      refine ⟨hnd, ?_⟩
      intro x hx
      rcases hinv x hx with ⟨habs, _⟩ | h
      · exact absurd habs (List.not_mem_nil x)
      · exact h
  | tv :: l, acc, hl, hnd, hinv => by
      rw [List.foldl_cons]
      have hnd1 : (acc.toVisit.erase tv).Nodup := List.Nodup.erase tv hnd
      have hinv1 : ∀ x ∈ acc.toVisit.erase tv,
          (x ∈ l ∧ x ∈ g.nodes ∧ t ≤ rank x) ∨ (x ∈ g.nodes ∧ t + 1 ≤ rank x) := by
        intro x hx
        have hxm := (List.Nodup.mem_erase_iff hnd).mp hx
        rcases hinv x hxm.2 with ⟨hxl, hxr⟩ | h
        · left
          exact ⟨by
            rcases List.mem_cons.mp hxl with rfl | h2
            · exact absurd rfl hxm.1
            · exact h2, hxr⟩
        · right; exact h
      by_cases hte : tv = e
      · rw [if_neg (by simp [hte])]
        exact searchPass_rank g e rank t hrank hclosed l _
          (fun x hx => hl x (List.mem_cons_of_mem tv hx)) hnd1 hinv1
      · rw [if_pos hte]
        have hsucc := succFold_toVisit_pred
          (fun x => (x ∈ l ∧ x ∈ g.nodes ∧ t ≤ rank x) ∨ (x ∈ g.nodes ∧ t + 1 ≤ rank x))
          (successors g tv) ⟨acc.found, acc.toVisit.erase tv⟩ hnd1 hinv1
          (by
            intro w hw
            have hedge := (mem_successors g tv w).mp hw
            right
            refine ⟨hclosed tv w hedge, ?_⟩
            have h1 := hrank tv w hedge
            have h2 := hl tv (List.mem_cons_self tv l)
            omega)
        exact searchPass_rank g e rank t hrank hclosed l _
          (fun x hx => hl x (List.mem_cons_of_mem tv hx)) hsucc.1 hsucc.2
termination_by l => l.length

/-- With a topological rank function bounded by `N`, the frontier empties
within `N + 1` passes. -/
theorem searchAux_terminates (g : Graph) (e : Nat) (rank : Nat → Nat) (N : Nat)
    (hrank : ∀ p q, (p, q) ∈ g.edges → rank p < rank q)
    (hclosed : ∀ p q, (p, q) ∈ g.edges → q ∈ g.nodes)
    (hbound : ∀ v ∈ g.nodes, rank v ≤ N) :
    ∀ (fuel t : Nat) (st : SearchState),
      st.toVisit.Nodup →
      (∀ x ∈ st.toVisit, x ∈ g.nodes ∧ t ≤ rank x) →
      N + 1 ≤ t + fuel →
      ∃ st2, searchAux g e fuel st = some st2
  | 0, t, st, _, hinv, hfuel => by
      have hempty : st.toVisit = [] := by
        cases hv : st.toVisit with
        | nil => rfl
        | cons x xs =>
            have := hinv x (by rw [hv]; exact List.mem_cons_self x xs)
            have := hbound x this.1
            omega
      exact ⟨st, by rw [searchAux, if_pos (by rw [hempty]; rfl)]⟩
  | fuel + 1, t, st, hnd, hinv, hfuel => by
      rw [searchAux]
      split
      · exact ⟨st, rfl⟩
      · have hpass := searchPass_rank g e rank t hrank hclosed st.toVisit st
          (fun x hx => (hinv x hx).2) hnd
          (fun x hx => Or.inl ⟨hx, hinv x hx⟩)
        exact searchAux_terminates g e rank N hrank hclosed hbound fuel (t + 1)
          (searchPass g e st) hpass.1 hpass.2 (by omega)

/-- C10: the frontier search of `subgraph_between` terminates on every
finite acyclic graph — acyclicity taken, as usual for finite graphs, as the
existence of a topological rank function bounded on the vertices, with the
edge relation closed over the vertex list — because each pass strictly
raises the minimum rank of the frontier; and termination is **not**
guaranteed in the presence of a cycle reachable from `start` that avoids
`end`: on the one-vertex self-loop the frontier is re-populated forever
(visited vertices are re-added unconditionally), so the loop never exits
for any amount of fuel. -/
theorem C10_search_terminates_acyclic_diverges_cyclic :
    (∀ (g : Graph) (s e : Nat) (rank : Nat → Nat) (N : Nat),
      (∀ p q, (p, q) ∈ g.edges → rank p < rank q) →
      (∀ p q, (p, q) ∈ g.edges → q ∈ g.nodes) →
      (∀ v ∈ g.nodes, rank v ≤ N) →
      s ∈ g.nodes →
      ∃ res, get_subgraph_between_nodes g s e (N + 1) = some res)
    ∧ (∀ fuel, searchAux (Graph.mk [0, 1] [(0, 0)]) 1 fuel ⟨[0], [0]⟩ = none) := by
  constructor
  · intro g s e rank N hrank hclosed hbound hs
    obtain ⟨st2, hst2⟩ := searchAux_terminates g e rank N hrank hclosed hbound
      (N + 1) 0 ⟨[s], [s]⟩ (List.nodup_singleton s)
      (by
        intro x hx
        rw [List.mem_singleton] at hx
        subst hx
        exact ⟨hs, Nat.zero_le _⟩)
      (by omega)
    exact ⟨inducedSubgraph g (addSet e st2.found),
      by rw [get_subgraph_between_nodes, hst2]⟩
  · intro fuel
    induction fuel with
    | zero => rfl
    | succ fuel ih => exact ih

/-- C10 witness: on the two-vertex graph `0→1` (topologically ranked by the
identity, bounded by 1) the search from `0` to `1` terminates with fuel 2. -/
theorem C10_search_terminates_acyclic_diverges_cyclic_witness :
    ∃ res, get_subgraph_between_nodes (Graph.mk [0, 1] [(0, 1)]) 0 1 2 = some res :=
  C10_search_terminates_acyclic_diverges_cyclic.1 (Graph.mk [0, 1] [(0, 1)]) 0 1
    (fun v => v) 1
    (by intro p q h; simp only [List.mem_singleton, Prod.mk.injEq] at h
        obtain ⟨rfl, rfl⟩ := h; decide)
    (by intro p q h; simp only [List.mem_singleton, Prod.mk.injEq] at h; simp [h.2])
    (by decide) (by decide)

/-! ## C9 -/

/-- Every member is bounded by the running maximum. -/
theorem mem_le_foldr_max : ∀ (l : List Nat), ∀ x ∈ l, x ≤ l.foldr max 0
  | y :: l, x, hx => by
      rw [List.foldr_cons]
      rcases List.mem_cons.mp hx with rfl | h
      · exact le_max_left x (l.foldr max 0)
      · exact le_trans (mem_le_foldr_max l x h) (le_max_right y (l.foldr max 0))

/-- Every edge endpoint is bounded by the running maximum. -/
theorem mem_le_foldr_max_pairs : ∀ (l : List (Nat × Nat)), ∀ p q, (p, q) ∈ l →
    p ≤ l.foldr (fun e acc => max (max e.1 e.2) acc) 0
    ∧ q ≤ l.foldr (fun e acc => max (max e.1 e.2) acc) 0
  | e :: l, p, q, hpq => by
      rw [List.foldr_cons]
      rcases List.mem_cons.mp hpq with h | h
      · subst h
        constructor
        · exact le_trans (le_max_left p q) (le_max_left _ _)
        · exact le_trans (le_max_right p q) (le_max_left _ _)
      · obtain ⟨h1, h2⟩ := mem_le_foldr_max_pairs l p q h
        exact ⟨le_trans h1 (le_max_right _ _), le_trans h2 (le_max_right _ _)⟩

/-- Vertices are bounded by `maxId`. -/
theorem maxId_nodes_le (g : Graph) : ∀ v ∈ g.nodes, v ≤ maxId g :=
  fun v hv => le_trans (mem_le_foldr_max g.nodes v hv) (le_max_left _ _)

/-- Edge endpoints are bounded by `maxId`. -/
theorem maxId_edges_le (g : Graph) : ∀ p q, (p, q) ∈ g.edges →
    p ≤ maxId g ∧ q ≤ maxId g := by
  intro p q hpq
  obtain ⟨h1, h2⟩ := mem_le_foldr_max_pairs g.edges p q hpq
  exact ⟨le_trans h1 (le_max_right _ _), le_trans h2 (le_max_right _ _)⟩

/-- Relabelled vertices sit above the base. -/
theorem relabel_nodes_ge (sub : Graph) (base : Nat) :
    ∀ v ∈ (relabelGraph sub base).nodes, base ≤ v := by
  intro v hv
  simp only [relabelGraph, List.mem_map] at hv
  obtain ⟨w, _, rfl⟩ := hv
  omega

/-- Relabelled edge endpoints sit above the base. -/
theorem relabel_edges_ge (sub : Graph) (base : Nat) :
    ∀ p q, (p, q) ∈ (relabelGraph sub base).edges → base ≤ p ∧ base ≤ q := by
  intro p q hpq
  simp only [relabelGraph, List.mem_map, Prod.mk.injEq] at hpq
  obtain ⟨e, _, h1, h2⟩ := hpq
  omega

/-- Everything the Kahn loop emits came from the remaining pool or the
accumulator. -/
theorem topoSortAux_mem (g : Graph) :
    ∀ (fuel : Nat) (remaining acc order : List Nat),
      topoSortAux g fuel remaining acc = some order →
      ∀ x ∈ order, x ∈ remaining ∨ x ∈ acc
  | 0, remaining, acc, order, h, x, hx => by
      rw [topoSortAux] at h
      split at h
      · cases h; exact Or.inr (List.mem_reverse.mp hx)
      · cases h
  | fuel + 1, remaining, acc, order, h, x, hx => by
      rw [topoSortAux] at h
      split at h
      · cases h; exact Or.inr (List.mem_reverse.mp hx)
      · rcases hfind : remaining.find? (noIncomingFrom g remaining) with _ | v
        · rw [hfind] at h; cases h
        · rw [hfind] at h
          rcases topoSortAux_mem g fuel (remaining.erase v) (v :: acc) order h x hx with
            h2 | h2
          · exact Or.inl (List.mem_of_mem_erase h2)
          · rcases List.mem_cons.mp h2 with rfl | h3
            · exact Or.inl (List.mem_of_find?_eq_some hfind)
            · exact Or.inr h3

/-- The Kahn loop emits exactly as many vertices as it consumes. -/
theorem topoSortAux_length (g : Graph) :
    ∀ (fuel : Nat) (remaining acc order : List Nat),
      topoSortAux g fuel remaining acc = some order →
      order.length = remaining.length + acc.length
  | 0, remaining, acc, order, h => by
      rw [topoSortAux] at h
      split at h
      · cases h
        next hemp =>
          rw [List.isEmpty_iff] at hemp
          simp [hemp]
      · cases h
  | fuel + 1, remaining, acc, order, h => by
      rw [topoSortAux] at h
      split at h
      · cases h
        next hemp =>
          rw [List.isEmpty_iff] at hemp
          simp [hemp]
      · rcases hfind : remaining.find? (noIncomingFrom g remaining) with _ | v
        · rw [hfind] at h; cases h
        · rw [hfind] at h
          have hlen := topoSortAux_length g fuel (remaining.erase v) (v :: acc) order h
          have hmem := List.mem_of_find?_eq_some hfind
          rw [List.length_erase_of_mem hmem] at hlen
          have : 1 ≤ remaining.length := List.length_pos.mpr (List.ne_nil_of_mem hmem)
          simp only [List.length_cons] at hlen
          omega

/-- The default last element of a non-empty list is a member. -/
theorem getLastD_mem : ∀ (l : List Nat) (d : Nat), l ≠ [] → l.getLastD d ∈ l
  | [x], _, _ => by simp
  | x :: y :: l, d, _ => by
      rw [show (x :: y :: l).getLastD d = (y :: l).getLastD d from rfl]
      exact List.mem_cons_of_mem x (getLastD_mem (y :: l) d (by simp))

/-- C9: `insert_graph(graph, place, subgraph)` with a non-empty acyclic
`subgraph`: the deep copy's vertices (fresh handles) and edges are merged
into the host; every pre-existing outgoing edge of `place` is removed; one
edge from `place` to the copy's topological-first vertex is added; every
edge not leaving `place` is kept verbatim; and no edge is added from the
copy's topological-last vertex to any former successor of `place` — the
inserted region dangles as a terminal branch. -/
theorem C9_insert_graph_terminal_branch (g : Graph) (place : Nat) (sub : Graph)
    (res : Graph) (order : List Nat)
    (hplace : place ∈ g.nodes)
    (hne : sub.nodes.length > 0)
    (horder : topoSort (relabelGraph sub (maxId g + 1)) = some order)
    (hres : insert_graph g place sub = some res) :
    res.nodes = g.nodes ++ (relabelGraph sub (maxId g + 1)).nodes
    ∧ res.edges = (place, order.headD 0)
        :: ((g.edges ++ (relabelGraph sub (maxId g + 1)).edges).filter
              (fun e => !(e.1 == place)))
    ∧ ∀ q, (place, q) ∈ g.edges → (order.getLastD 0, q) ∉ res.edges := by
  have hbase : place ≤ maxId g := maxId_nodes_le g place hplace
  rw [insert_graph] at hres
  rw [if_pos hne] at hres
  simp only [horder] at hres
  injection hres with hres
  subst hres
  have hfilter :
      (g.edges ++ (relabelGraph sub (maxId g + 1)).edges).filter
          (fun e => !(e.1 == place
            && e.2 ∈ successors ⟨g.nodes ++ (relabelGraph sub (maxId g + 1)).nodes,
                 g.edges ++ (relabelGraph sub (maxId g + 1)).edges⟩ place))
        = (g.edges ++ (relabelGraph sub (maxId g + 1)).edges).filter
            (fun e => !(e.1 == place)) := by
    apply List.filter_congr
    intro e he
    by_cases hp : e.1 = place
    · have hsucc : e.2 ∈ successors
          ⟨g.nodes ++ (relabelGraph sub (maxId g + 1)).nodes,
           g.edges ++ (relabelGraph sub (maxId g + 1)).edges⟩ place := by
        rw [mem_successors]
        rw [show (place, e.2) = e by rw [← hp]]
        exact he
      simp [hp, hsucc]
    · simp [hp]
  refine ⟨rfl, ?_, ?_⟩
  · rw [hfilter]
  · intro q hq hmem
    have horderne : order ≠ [] := by
      have hlen := topoSortAux_length (relabelGraph sub (maxId g + 1))
        (relabelGraph sub (maxId g + 1)).nodes.length
        (relabelGraph sub (maxId g + 1)).nodes [] order horder
      intro hnil
      rw [hnil] at hlen
      simp only [List.length_nil, relabelGraph, List.length_map] at hlen
      omega
    have hlast : order.getLastD 0 ∈ order := getLastD_mem order 0 horderne
    have hlastcopy : (maxId g + 1) ≤ order.getLastD 0 := by
      rcases topoSortAux_mem (relabelGraph sub (maxId g + 1))
        (relabelGraph sub (maxId g + 1)).nodes.length
        (relabelGraph sub (maxId g + 1)).nodes [] order horder
        (order.getLastD 0) hlast with h | h
      · exact relabel_nodes_ge sub (maxId g + 1) _ h
      · exact absurd h (List.not_mem_nil _)
    have hqle : q ≤ maxId g := (maxId_edges_le g place q hq).2
    rw [hfilter] at hmem
    rcases List.mem_cons.mp hmem with hcase | hcase
    · have : order.getLastD 0 = place := congrArg Prod.fst hcase
      omega
    · have hcase2 := (List.mem_filter.mp hcase).1
      rcases List.mem_append.mp hcase2 with hcg | hcc
      · have := (maxId_edges_le g _ _ hcg).1
        omega
      · have := (relabel_edges_ge sub (maxId g + 1) _ _ hcc).2
        omega

/-- C9 witness: inserting the one-vertex subgraph `{7}` after vertex `0` of
the graph `0→1`: the copy gets the fresh handle `9`, the old edge `0→1` is
removed, the single new edge is `0→9`, and nothing connects `9` back to the
former successor `1`. -/
theorem C9_insert_graph_terminal_branch_witness :
    (Graph.mk [0, 1, 9] [(0, 9)]).nodes
        = (Graph.mk [0, 1] [(0, 1)]).nodes
          ++ (relabelGraph (Graph.mk [7] [])
                (maxId (Graph.mk [0, 1] [(0, 1)]) + 1)).nodes
    ∧ (Graph.mk [0, 1, 9] [(0, 9)]).edges
        = (0, ([9] : List Nat).headD 0)
          :: (((Graph.mk [0, 1] [(0, 1)]).edges
              ++ (relabelGraph (Graph.mk [7] [])
                    (maxId (Graph.mk [0, 1] [(0, 1)]) + 1)).edges).filter
                (fun e => !(e.1 == 0)))
    ∧ ∀ q, (0, q) ∈ (Graph.mk [0, 1] [(0, 1)]).edges →
        (([9] : List Nat).getLastD 0, q) ∉ (Graph.mk [0, 1, 9] [(0, 9)]).edges :=
  C9_insert_graph_terminal_branch (Graph.mk [0, 1] [(0, 1)]) 0 (Graph.mk [7] [])
    (Graph.mk [0, 1, 9] [(0, 9)]) [9] (by decide) (by decide) rfl rfl

/-- Renaming identifiers never changes a node's constructor kind. -/
theorem isSimple_mapIDs (f : String → String) (n : CNode) :
    isSimple (mapIDs f n) = isSimple n := by
  cases n <;> rfl

/-- Renaming identifiers never changes `If`-ness. -/
theorem isIf_mapIDs (f : String → String) (n : CNode) :
    isIf (mapIDs f n) = isIf n := by
  cases n <;> rfl

/-- Renaming identifiers never changes `Continue`-ness. -/
theorem isContinue_mapIDs (f : String → String) (n : CNode) :
    isContinue (mapIDs f n) = isContinue n := by
  cases n <;> rfl

/-- A plain statement is not an `If`. -/
theorem isSimple_not_isIf (n : CNode) (h : isSimple n = true) : isIf n = false := by
  cases n <;> first | rfl | exact Bool.noConfusion h

/-- A plain statement is not a `Continue`. -/
theorem isSimple_not_isContinue (n : CNode) (h : isSimple n = true) :
    isContinue n = false := by
  cases n <;> first | rfl | exact Bool.noConfusion h

/-- A plain statement contains no conditional nesting. -/
theorem nestDepth_simple (n : CNode) (h : isSimple n = true) : nestDepth n = 0 := by
  cases n <;> first | rfl | exact Bool.noConfusion h

/-- The branch renaming keeps plain statements plain. -/
theorem isSimple_uponRename (sv : SyncVars) (i : Nat) (m : CNode) :
    isSimple (uponRename sv i m) = isSimple m := by
  rw [uponRename]
  by_cases hi : 0 < i
  · rw [if_pos hi, rename_iterated_variables, rename_iterated_variables,
      isSimple_mapIDs, isSimple_mapIDs]
  · rw [if_neg hi, rename_iterated_variables, isSimple_mapIDs]

/-- The branch renaming keeps `Continue`-ness. -/
theorem isContinue_uponRename (sv : SyncVars) (i : Nat) (m : CNode) :
    isContinue (uponRename sv i m) = isContinue m := by
  rw [uponRename]
  by_cases hi : 0 < i
  · rw [if_pos hi, rename_iterated_variables, rename_iterated_variables,
      isContinue_mapIDs, isContinue_mapIDs]
  · rw [if_neg hi, rename_iterated_variables, isContinue_mapIDs]

/-- The branch renaming fixes `Continue` itself. -/
theorem uponRename_continue (sv : SyncVars) (i : Nat) :
    uponRename sv i .Continue = .Continue := by
  rw [uponRename]
  by_cases hi : 0 < i
  · rw [if_pos hi]; rfl
  · rw [if_neg hi]; rfl

/-- The terminal renaming fixes `Continue` itself. -/
theorem terminalRename_continue (sv : SyncVars) (i : Nat) :
    terminalRename sv i .Continue = .Continue := rfl

/-- Depth of a concatenation is the maximum of the depths. -/
theorem nestDepthList_append : ∀ (a b : List CNode),
    nestDepthList (a ++ b) = max (nestDepthList a) (nestDepthList b)
  | [], b => by simp [nestDepthList]
  | x :: a, b => by
      rw [List.cons_append, nestDepthList, nestDepthList, nestDepthList_append a b,
        Nat.max_assoc]

/-- A member's depth bounds the list depth from below. -/
theorem le_nestDepthList : ∀ (l : List CNode) (x : CNode), x ∈ l →
    nestDepth x ≤ nestDepthList l
  | y :: l, x, hx => by
      rw [nestDepthList]
      rcases List.mem_cons.mp hx with rfl | h
      · exact Nat.le_max_left _ _
      · exact le_trans (le_nestDepthList l x h) (Nat.le_max_right _ _)

/-- A uniform bound on members bounds the list depth. -/
theorem nestDepthList_le : ∀ (l : List CNode) (d : Nat),
    (∀ x ∈ l, nestDepth x ≤ d) → nestDepthList l ≤ d
  | [], _, _ => Nat.zero_le _
  | x :: l, d, h => by
      rw [nestDepthList]
      exact Nat.max_le.mpr ⟨h x (List.mem_cons_self x l),
        nestDepthList_le l d (fun y hy => h y (List.mem_cons_of_mem x hy))⟩

/-- The splice stage on a well-formed branch: rename the plain statements,
then splice the renamed template copy immediately before the final
`continue`. -/
theorem spliceStage_good (tmpl : List CNode) (sv : SyncVars) (iter : Nat)
    (bs : List CNode) (hbs : ∀ m ∈ bs, isSimple m = true) :
    spliceStage tmpl sv iter (bs ++ [.Continue])
      = bs.map (uponRename sv iter) ++ tmpl.map (tmplRename sv iter) ++ [.Continue] := by
  rw [spliceStage]
  have hmap : (bs ++ [CNode.Continue]).map
      (fun n => if isIf n then n else uponRename sv iter n)
      = bs.map (uponRename sv iter) ++ [CNode.Continue] := by
    rw [List.map_append]
    congr 1
    · apply List.map_congr_left
      intro m hm
      rw [if_neg (by rw [isSimple_not_isIf m (hbs m hm)]; exact Bool.false_ne_true)]
    · simp only [List.map_singleton]
      rw [if_neg (by decide), uponRename_continue]
  rw [hmap, mapDfsSpliceItems,
    if_pos (by rw [List.any_append]; simp [isContinue]),
    insert_node_single_final_continue _ _ (by
      intro x hx
      rw [List.mem_map] at hx
      obtain ⟨m, hm, rfl⟩ := hx
      rw [isContinue_uponRename]
      exact isSimple_not_isContinue m (hbs m hm))]

/-- The template renaming never changes `If`-ness. -/
theorem isIf_tmplRename (sv : SyncVars) (iter : Nat) (m : CNode) :
    isIf (tmplRename sv iter m) = isIf m := by
  cases m <;> rfl

/-- Classifying the direct conditionals after a splice: each one is a
condition-renamed template handler, its body untouched. -/
theorem spliced_if_shape (tmpl : List CNode) (sv : SyncVars) (iter : Nat)
    (bs : List CNode) (hbs : ∀ m ∈ bs, isSimple m = true)
    (htmpl : ∀ n ∈ tmpl, isSimple n = true ∨ goodHandler n) :
    ∀ n ∈ spliceStage tmpl sv iter (bs ++ [.Continue]), isIf n = true →
      ∃ c0 hs0, (.If c0 (.Compound (hs0 ++ [.Continue])) none) ∈ tmpl
        ∧ (∀ m ∈ hs0, isSimple m = true)
        ∧ n = .If (rename_iterated_variables [sv.mbox, sv.round] iter c0)
            (.Compound (hs0 ++ [.Continue])) none := by
  intro n hn hif
  rw [spliceStage_good tmpl sv iter bs hbs] at hn
  rcases List.mem_append.mp hn with hn2 | hn2
  · rcases List.mem_append.mp hn2 with hn3 | hn3
    · rw [List.mem_map] at hn3
      obtain ⟨m, hm, rfl⟩ := hn3
      rw [isSimple_not_isIf _ (by rw [isSimple_uponRename]; exact hbs m hm)] at hif
      cases hif
    · rw [List.mem_map] at hn3
      obtain ⟨m, hm, rfl⟩ := hn3
      rcases htmpl m hm with hsimp | ⟨c0, hs0, rfl, hhs0⟩
      · rw [isIf_tmplRename, isSimple_not_isIf m hsimp] at hif
        cases hif
      · exact ⟨c0, hs0, hm, hhs0, rfl⟩
  · rw [List.mem_singleton] at hn2
    subst hn2
    cases hif

/-- The terminal renaming keeps plain statements plain. -/
theorem isSimple_terminalRename (sv : SyncVars) (i : Nat) (m : CNode) :
    isSimple (terminalRename sv i m) = isSimple m := by
  rw [terminalRename, rename_iterated_variables, rename_iterated_variables,
    isSimple_mapIDs, isSimple_mapIDs]

/-- The terminal rename pass applied to a well-formed handler body leaves a
list of plain statements and a `continue`: zero further nesting. -/
theorem termMap_depth_zero (sv : SyncVars) (iter : Nat) (hs0 : List CNode)
    (hhs0 : ∀ m ∈ hs0, isSimple m = true) :
    nestDepthList ((hs0 ++ [CNode.Continue]).map
      (fun m => if isIf m then m else terminalRename sv iter m)) = 0 := by
  refine Nat.le_antisymm (nestDepthList_le _ _ ?_) (Nat.zero_le _)
  intro x hx
  rw [List.mem_map] at hx
  obtain ⟨m, hm, rfl⟩ := hx
  rcases List.mem_append.mp hm with hm2 | hm2
  · rw [if_neg (by rw [isSimple_not_isIf m (hhs0 m hm2)]; exact Bool.false_ne_true),
      nestDepth_simple _ (by rw [isSimple_terminalRename]; exact hhs0 m hm2)]
  · rw [List.mem_singleton] at hm2
    subst hm2
    rw [if_neg (by decide), terminalRename_continue]
    exact Nat.le_refl 0

/-- Every non-`If` member of a spliced branch carries no nesting. -/
theorem spliced_nonIf_depth (tmpl : List CNode) (sv : SyncVars) (iter : Nat)
    (bs : List CNode) (hbs : ∀ m ∈ bs, isSimple m = true)
    (htmpl : ∀ n ∈ tmpl, isSimple n = true ∨ goodHandler n) :
    ∀ m ∈ spliceStage tmpl sv iter (bs ++ [CNode.Continue]), isIf m = false →
      nestDepth m = 0 := by
  intro m hm hif
  rw [spliceStage_good tmpl sv iter bs hbs] at hm
  rcases List.mem_append.mp hm with hm2 | hm2
  · rcases List.mem_append.mp hm2 with hm3 | hm3
    · rw [List.mem_map] at hm3
      obtain ⟨p, hp, rfl⟩ := hm3
      exact nestDepth_simple _ (by rw [isSimple_uponRename]; exact hbs p hp)
    · rw [List.mem_map] at hm3
      obtain ⟨p, hp, rfl⟩ := hm3
      rcases htmpl p hp with hsimp | ⟨c0, hs0, rfl, hhs0⟩
      · refine nestDepth_simple _ ?_
        rw [show tmplRename sv iter p = rename_iterated_variables [sv.mbox, sv.round] iter p
              from by cases p <;> first | rfl | exact Bool.noConfusion hsimp]
        rw [rename_iterated_variables, isSimple_mapIDs]
        exact hsimp
      · rw [isIf_tmplRename] at hif
        cases hif
  · rw [List.mem_singleton] at hm2
    subst hm2
    rfl

/-- The per-upon transformation leaves non-`If` nodes alone. -/
theorem branchUpon_nonIf (f : List CNode → List CNode) (n : CNode)
    (h : isIf n = false) : branchUpon f n = n := by
  cases n <;> first | rfl | exact Bool.noConfusion h

/-- The main depth argument: the expansion with `gas = unfoldings - iteration`
produces exactly `gas + 1` levels of nested handlers in a well-formed branch
over a well-formed template. -/
theorem unfoldAux_depth (tmpl : List CNode) (sv : SyncVars)
    (htmpl : goodTmpl tmpl) :
    ∀ (gas iter : Nat) (b : List CNode), goodBranch b →
      nestDepthList (unfoldAux tmpl sv gas iter b) = gas + 1
  | 0, iter, b, hb => by
      obtain ⟨bs, rfl, hbs⟩ := hb
      rw [unfoldAux]
      refine Nat.le_antisymm (nestDepthList_le _ _ ?_) ?_
      · intro x hx
        rw [List.mem_map] at hx
        obtain ⟨m, hm, rfl⟩ := hx
        by_cases hif : isIf m = true
        · obtain ⟨c0, hs0, _, hhs0, rfl⟩ :=
            spliced_if_shape tmpl sv iter bs hbs htmpl.1 m hm hif
          rw [branchUpon, nestDepth, nestDepth, termMap_depth_zero sv iter hs0 hhs0]
        · rw [branchUpon_nonIf _ m (by revert hif; cases isIf m <;> simp)]
          rw [spliced_nonIf_depth tmpl sv iter bs hbs htmpl.1 m hm
            (by revert hif; cases isIf m <;> simp)]
          omega
      · obtain ⟨n0, hn0, hif0⟩ := htmpl.2
        rcases htmpl.1 n0 hn0 with hsimp | ⟨c0, hs0, rfl, hhs0⟩
        · rw [isSimple_not_isIf n0 hsimp] at hif0; cases hif0
        · have hmem : tmplRename sv iter (.If c0 (.Compound (hs0 ++ [CNode.Continue])) none)
              ∈ spliceStage tmpl sv iter (bs ++ [CNode.Continue]) := by
            rw [spliceStage_good tmpl sv iter bs hbs]
            exact List.mem_append.mpr (Or.inl (List.mem_append.mpr (Or.inr
              (List.mem_map_of_mem _ hn0))))
          have hx := List.mem_map_of_mem (branchUpon
            (fun b => b.map (fun m => if isIf m then m else terminalRename sv iter m)))
            hmem
          refine le_trans ?_ (le_nestDepthList _ _ hx)
          rw [show tmplRename sv iter (.If c0 (.Compound (hs0 ++ [CNode.Continue])) none)
              = .If (rename_iterated_variables [sv.mbox, sv.round] iter c0)
                  (.Compound (hs0 ++ [CNode.Continue])) none from rfl]
          rw [branchUpon, nestDepth]
          omega
  | gas + 1, iter, b, hb => by
      obtain ⟨bs, rfl, hbs⟩ := hb
      rw [unfoldAux]
      refine Nat.le_antisymm (nestDepthList_le _ _ ?_) ?_
      · intro x hx
        rw [List.mem_map] at hx
        obtain ⟨m, hm, rfl⟩ := hx
        by_cases hif : isIf m = true
        · obtain ⟨c0, hs0, _, hhs0, rfl⟩ :=
            spliced_if_shape tmpl sv iter bs hbs htmpl.1 m hm hif
          rw [branchUpon, nestDepth, nestDepth,
            unfoldAux_depth tmpl sv htmpl gas (iter + 1) (hs0 ++ [CNode.Continue])
              ⟨hs0, rfl, hhs0⟩]
          omega
        · rw [branchUpon_nonIf _ m (by revert hif; cases isIf m <;> simp)]
          rw [spliced_nonIf_depth tmpl sv iter bs hbs htmpl.1 m hm
            (by revert hif; cases isIf m <;> simp)]
          omega
      · obtain ⟨n0, hn0, hif0⟩ := htmpl.2
        rcases htmpl.1 n0 hn0 with hsimp | ⟨c0, hs0, rfl, hhs0⟩
        · rw [isSimple_not_isIf n0 hsimp] at hif0; cases hif0
        · have hmem : tmplRename sv iter (.If c0 (.Compound (hs0 ++ [CNode.Continue])) none)
              ∈ spliceStage tmpl sv iter (bs ++ [CNode.Continue]) := by
            rw [spliceStage_good tmpl sv iter bs hbs]
            exact List.mem_append.mpr (Or.inl (List.mem_append.mpr (Or.inr
              (List.mem_map_of_mem _ hn0))))
          have hx := List.mem_map_of_mem (branchUpon (unfoldAux tmpl sv gas (iter + 1)))
            hmem
          refine le_trans ?_ (le_nestDepthList _ _ hx)
          rw [show tmplRename sv iter (.If c0 (.Compound (hs0 ++ [CNode.Continue])) none)
              = .If (rename_iterated_variables [sv.mbox, sv.round] iter c0)
                  (.Compound (hs0 ++ [CNode.Continue])) none from rfl]
          rw [branchUpon, nestDepth, nestDepth,
            unfoldAux_depth tmpl sv htmpl gas (iter + 1) (hs0 ++ [CNode.Continue])
              ⟨hs0, rfl, hhs0⟩]
          omega

/-- The final rename pass on a well-formed handler body: plain statements
are terminally renamed, the `continue` is kept. -/
theorem termMap_good (sv : SyncVars) (iter : Nat) (hs0 : List CNode)
    (hhs0 : ∀ m ∈ hs0, isSimple m = true) :
    (hs0 ++ [CNode.Continue]).map
        (fun m => if isIf m then m else terminalRename sv iter m)
      = hs0.map (terminalRename sv iter) ++ [CNode.Continue] := by
  rw [List.map_append]
  congr 1
  · apply List.map_congr_left
    intro p hp
    rw [if_neg (by rw [isSimple_not_isIf p (hhs0 p hp)]; exact Bool.false_ne_true)]

/-- **C5.**  For a well-formed program — a function whose body is a single
main loop whose template satisfies the `unfold` preconditions and which the
declaration phase leaves unchanged — `unfold(ast, k, vars)` with `k ≥ 1`
succeeds and rewrites each loop-body handler with `_unfold` at
`iteration = 0, unfoldings = k - 1`; every expanded handler branch then
carries exactly `k` levels of nested handler expansion, and at the terminal
stage (`gas = 0`) every new handler is a condition-renamed template handler
whose branch is exactly its plain statements under the final rename pass
(`round → generation(iteration+1)`, `mbox → generation(iteration)` — that is
`terminalRename`) followed by the original `continue`: no further splicing
occurs there. -/
theorem C5_unfold_k_levels (w : CNode) (tmpl : List CNode) (sv : SyncVars)
    (k : Nat) (hk : 1 ≤ k) (htmpl : goodTmpl tmpl)
    (hdecl : declPhase [sv.round, sv.mbox] k
        (.FuncDef (.Compound [.While w (.Compound tmpl)]))
      = .FuncDef (.Compound [.While w (.Compound tmpl)])) :
    unfold (.FuncDef (.Compound [.While w (.Compound tmpl)])) k sv
        = .ok (.FuncDef (.Compound [.While w
            (.Compound (tmpl.map (unfoldUpon tmpl sv (k - 1))))]))
    ∧ (∀ c hs, (.If c (.Compound (hs ++ [.Continue])) none) ∈ tmpl →
        unfoldUpon tmpl sv (k - 1) (.If c (.Compound (hs ++ [.Continue])) none)
          = .If c (.Compound (unfoldAux tmpl sv (k - 1) 0 (hs ++ [.Continue]))) none
        ∧ nestDepthList (unfoldAux tmpl sv (k - 1) 0 (hs ++ [.Continue])) = k)
    ∧ (∀ iter b, goodBranch b → ∀ n ∈ unfoldAux tmpl sv 0 iter b, isIf n = true →
        ∃ c0 hs0, (.If c0 (.Compound (hs0 ++ [.Continue])) none) ∈ tmpl
          ∧ n = .If (rename_iterated_variables [sv.mbox, sv.round] iter c0)
              (.Compound (hs0.map (terminalRename sv iter) ++ [.Continue])) none) := by
  refine ⟨?_, ?_, ?_⟩
  · have h1 : unfold (.FuncDef (.Compound [.While w (.Compound tmpl)])) k sv
        = .ok ((rmwNode (fun ww =>
            match ww with
            | .While c2 (.Compound items2) =>
                .While c2 (.Compound (items2.map (unfoldUpon tmpl sv (k - 1))))
            | ww => ww)
          (declPhase [sv.round, sv.mbox] k
            (.FuncDef (.Compound [.While w (.Compound tmpl)])))).1) := rfl
    rw [hdecl] at h1
    exact h1.trans rfl
  · intro c hs hmem
    have hhs : ∀ m ∈ hs, isSimple m = true := by
      rcases htmpl.1 _ hmem with hsimp | ⟨c0, hs0, heq, hhs0⟩
      · exact Bool.noConfusion hsimp
      · injection heq with h1 h2 h3
        injection h2 with h2
        have hcanc : hs = hs0 := List.append_cancel_right h2
        subst hcanc
        exact hhs0
    refine ⟨rfl, ?_⟩
    have hd := unfoldAux_depth tmpl sv htmpl (k - 1) 0 (hs ++ [.Continue])
      ⟨hs, rfl, hhs⟩
    omega
  · intro iter b hb n hn hif
    obtain ⟨bs, rfl, hbs⟩ := hb
    rw [unfoldAux, List.mem_map] at hn
    obtain ⟨m, hm, rfl⟩ := hn
    by_cases him : isIf m = true
    · obtain ⟨c0, hs0, hmem0, hhs0, rfl⟩ :=
        spliced_if_shape tmpl sv iter bs hbs htmpl.1 m hm him
      refine ⟨c0, hs0, hmem0, ?_⟩
      rw [branchUpon, termMap_good sv iter hs0 hhs0]
    · rw [branchUpon_nonIf _ m (by revert him; cases isIf m <;> simp)] at hif
      exact absurd hif him

/-- The worked-example template satisfies the `unfold` precondition shape. -/
theorem exTmpl_good : goodTmpl exTmpl := by
  constructor
  · intro n hn
    rcases List.mem_cons.mp hn with rfl | hn2
    · exact Or.inl rfl
    · rw [List.mem_singleton] at hn2
      subst hn2
      exact Or.inr ⟨exCond, [exB], rfl, by
        intro m hm
        rw [List.mem_singleton] at hm
        subst hm
        rfl⟩
  · exact ⟨.If exCond (.Compound [exB, .Continue]) none,
      List.mem_cons_of_mem _ (List.mem_cons_self _ _), rfl⟩

/-- C5 at a concrete program: the two-statement template unfolded with
`k = 2`. -/
theorem C5_unfold_k_levels_witness :
    unfold (.FuncDef (.Compound [.While exW (.Compound exTmpl)])) 2 exSyncVars
        = .ok (.FuncDef (.Compound [.While exW
            (.Compound (exTmpl.map (unfoldUpon exTmpl exSyncVars 1)))]))
    ∧ (∀ c hs, (.If c (.Compound (hs ++ [.Continue])) none) ∈ exTmpl →
        unfoldUpon exTmpl exSyncVars 1 (.If c (.Compound (hs ++ [.Continue])) none)
          = .If c (.Compound (unfoldAux exTmpl exSyncVars 1 0 (hs ++ [.Continue]))) none
        ∧ nestDepthList (unfoldAux exTmpl exSyncVars 1 0 (hs ++ [.Continue])) = 2)
    ∧ (∀ iter b, goodBranch b → ∀ n ∈ unfoldAux exTmpl exSyncVars 0 iter b,
        isIf n = true →
        ∃ c0 hs0, (.If c0 (.Compound (hs0 ++ [.Continue])) none) ∈ exTmpl
          ∧ n = .If (rename_iterated_variables [exSyncVars.mbox, exSyncVars.round] iter c0)
              (.Compound (hs0.map (terminalRename exSyncVars iter) ++ [.Continue])) none) :=
  C5_unfold_k_levels exW exTmpl exSyncVars 2 (by omega) exTmpl_good (by rfl)
